import Mathlib

/-!
Verification development for a small MCP-over-SSE server (three near-identical
source variants).  We embed, as Lean functions and step relations:

* the session registry (a JavaScript `Map` from generated session ids to
  transport handles) and its lifecycle,
* the inbound message router of the `part_000` variant (delivery to the
  transport currently marked most recent, `202` otherwise),
* the bearer-token authentication middleware,
* the tool dispatch (`get_current_time`, `calculate`, `echo`) with its
  per-call `try`/`catch` conversion of failures into structured tool errors,
* a spec-modelled arithmetic evaluator standing in for the host `eval`.

The numbers that matter here are JS strings and integer timestamps, so the
embedding uses `Nat`, `String` and `ℚ` directly.  External calls made by the
source (`Date.prototype.toLocaleString`, the host `eval`, JS number
formatting) are parameters of the embedded functions.
-/

namespace Crooft

/-! ## Definitions -/

/-! ### JavaScript `Map` semantics

`transports` in the sources is a JS `Map` keyed by session id.  A JS `Map`
is insertion ordered; `set` overwrites in place or appends, `delete` removes
the unique entry for a key, `get` looks a key up.  We embed it as an
association list with those exact operations.
-/

def jsMapGet (m : List (String × α)) (k : String) : Option α :=
  match m.find? (fun p => decide (p.1 = k)) with
  | some p => some p.2
  | none => none

def jsMapHas (m : List (String × α)) (k : String) : Bool :=
  m.any (fun p => decide (p.1 = k))

def jsMapSet (m : List (String × α)) (k : String) (v : α) : List (String × α) :=
  if jsMapHas m k then m.map (fun p => if p.1 = k then (k, v) else p)
  else m ++ [(k, v)]

def jsMapDelete (m : List (String × α)) (k : String) : List (String × α) :=
  m.filter (fun p => decide (p.1 ≠ k))

/-- JS `Map.size` is the number of entries. -/
def jsMapSize (m : List (String × α)) : Nat := m.length

/-- Registry states reachable from the empty `Map` by `set` / `delete`,
the only mutations the sources perform. -/
inductive RegReachable : List (String × α) → Prop
  | init : RegReachable []
  | set (m : List (String × α)) (k : String) (v : α) :
      RegReachable m → RegReachable (jsMapSet m k v)
  | del (m : List (String × α)) (k : String) :
      RegReachable m → RegReachable (jsMapDelete m k)

/-! ### Session-id generation

`mcp-server/src/index.ts` generates `Date.now().toString()`;
`part_000` generates
`` `session-${Date.now()}-${Math.random().toString(36).substring(7)}` ``.
We embed decimal rendering of a `Nat` directly (JS number-to-string on a
nonnegative integer timestamp).
-/

def digitChar (d : Nat) : Char :=
  match d with
  | 0 => '0' | 1 => '1' | 2 => '2' | 3 => '3' | 4 => '4'
  | 5 => '5' | 6 => '6' | 7 => '7' | 8 => '8' | _ => '9'

def natDigits (n : Nat) : List Char :=
  if h : n < 10 then [digitChar n]
  else natDigits (n / 10) ++ [digitChar (n % 10)]
  termination_by n
  decreasing_by exact Nat.div_lt_self (by omega) (by omega)

def natToString (n : Nat) : String := ⟨natDigits n⟩

/-- Digit value read back from a digit character. -/
def digitVal (c : Char) : Nat := c.toNat - 48

def digitsVal (l : List Char) : Nat := l.foldl (fun a c => 10 * a + digitVal c) 0

/-- The `mcp-server` variant generator: `const sessionId = Date.now().toString()`. -/
def genSessionIdMcp (now : Nat) : String := natToString now

/-- The `part_000` variant generator; `rand` stands for the
`Math.random().toString(36).substring(7)` suffix. -/
def genSessionIdP0 (now : Nat) (rand : String) : String :=
  "session-" ++ natToString now ++ "-" ++ rand

/-- A session-creation event: its position in the process lifetime and the
clock reading / random suffix the generator consumed. -/
structure CreationEvent where
  idx : Nat
  now : Nat
  rand : String
  deriving DecidableEq

/-! ### Authentication middleware (`authenticate` in all variants) -/

/-- JS truthiness of an optional string (`undefined` and `""` are falsy). -/
def jsTruthyStr : Option String → Bool
  | none => false
  | some s => decide (s ≠ "")

/-- JS `String.prototype.startsWith`, character by character. -/
def jsStartsWith (s p : String) : Bool := p.data.isPrefixOf s.data

/-- JS `String.prototype.substring(n)`: drop the first `n` characters. -/
def jsSubstring (s : String) (n : Nat) : String := ⟨s.data.drop n⟩

inductive AuthOutcome
  | unauthorized401
  | forbidden403
  | pass
  deriving DecidableEq

/-- Middleware `authenticate`: 401 when the header is missing or does not start with
`"Bearer "`, 403 when `authHeader.substring(7)` differs from the API key,
otherwise `next()`. -/
def authenticate (authHeader : Option String) (apiKey : String) : AuthOutcome :=
  if !jsTruthyStr authHeader || !jsStartsWith (authHeader.getD "") "Bearer " then
    .unauthorized401
  else if jsSubstring (authHeader.getD "") 7 ≠ apiKey then .forbidden403
  else .pass

/-- The middleware as it acts on a request together with the session
registry: its body never references `transports`. -/
def authMiddleware (st : List (String × α)) (authHeader : Option String)
    (apiKey : String) : AuthOutcome × List (String × α) :=
  (authenticate authHeader apiKey, st)

/-! ### The `calculate` input gate and tool dispatch -/

/-- The JS regex-class `\s` (whitespace), over the characters it matches. -/
def jsWhitespace (c : Char) : Bool :=
  c.toNat ∈ [9, 10, 11, 12, 13, 32, 160, 5760, 8232, 8233, 8239, 8287, 12288, 65279]
    || (8192 ≤ c.toNat && c.toNat ≤ 8202)

/-- The character class `[0-9+\-*/().\s]` of the sanitizing regex. -/
def allowedChar (c : Char) : Bool :=
  c.isDigit || c == '+' || c == '-' || c == '*' || c == '/'
    || c == '(' || c == ')' || c == '.' || jsWhitespace c

/-- The `calculate` tool body.  `evalFn` is the host `eval` (an external
call); `expression.replace(/[^0-9+\-*\/().\s]/g, "")` is `filter allowedChar`.
A thrown `Error` is the `.error` branch. -/
def calculate (evalFn : String → Option ℚ) (expression : String) :
    Except String ℚ :=
  if expression = "" then .error "Expression is required"
  else
    let sanitized : String := ⟨expression.data.filter allowedChar⟩
    if sanitized ≠ expression then .error "Invalid characters in expression"
    else
      match evalFn sanitized with
      | some q => .ok q
      | none => .error "Evaluation failed"

structure ToolResult where
  text : String
  isError : Bool
  deriving DecidableEq

/-- The `arguments` object of a tool call, restricted to the fields the
handlers read (`args?.field` yields `none` when absent). -/
structure ToolArgs where
  timezone : Option String
  expression : Option String
  message : Option String
  uppercase : Option Bool
  deriving DecidableEq

/-- Reading `args?.timezone`: the JS conditional `timezone ? … : …` treats
`undefined` and `""` as "no timezone". -/
def jsTzArg (tzArg : Option String) : Option String :=
  if jsTruthyStr tzArg then tzArg else none

/-- The template string of the `get_current_time` result. -/
def timeText (tz : Option String) (timeString : String) : String :=
  "Current time" ++ (match tz with | some t => " in " ++ t | none => "")
    ++ ": " ++ timeString

/-- The body of the `CallToolRequestSchema` handler `switch`, before the
surrounding `try`/`catch`.  `fmt` is `date.toLocaleString` (with or without
a timezone; it may throw, e.g. on an invalid timezone name), `evalFn` is the
host `eval`, `showNum` is JS number formatting. -/
def handleTool (fmt : Option String → Except String String)
    (evalFn : String → Option ℚ) (showNum : ℚ → String)
    (name : String) (args : ToolArgs) : Except String ToolResult :=
  if name = "get_current_time" then
    match fmt (jsTzArg args.timezone) with
    | .ok timeString => .ok ⟨timeText (jsTzArg args.timezone) timeString, false⟩
    | .error e => .error e
  else if name = "calculate" then
    match calculate evalFn (args.expression.getD "") with
    | .ok q => .ok ⟨args.expression.getD "" ++ " = " ++ showNum q, false⟩
    | .error e => .error e
  else if name = "echo" then
    if args.message.getD "" = "" then .error "Message is required"
    else .ok ⟨if args.uppercase.getD false then (args.message.getD "").toUpper
              else args.message.getD "", false⟩
  else .error ("Unknown tool: " ++ name)

/-- The full handler: the `try`/`catch` that converts any thrown failure
into a structured tool error. -/
def dispatch (fmt : Option String → Except String String)
    (evalFn : String → Option ℚ) (showNum : ℚ → String)
    (name : String) (args : ToolArgs) : ToolResult :=
  match handleTool fmt evalFn showNum name args with
  | .ok r => r
  | .error msg => ⟨"Error: " ++ msg, true⟩

/-! ### The `part_000` session state and inbound message router

Transport handles are opaque, identity-compared objects (`currentTransport
=== transport`); we model them by `Nat` identities.  `opens` is ghost
bookkeeping: the sessions whose `req.on("close")` handler has not yet fired,
with the `sessionId` and `transport` captured by that closure.
-/

abbrev TransportId := Nat

structure P0State where
  transports : List (String × TransportId)
  currentTransport : Option TransportId
  opens : List (String × TransportId)
  deriving DecidableEq

def P0State.init : P0State := ⟨[], none, []⟩

inductive RouteResult
  | delivered (t : TransportId)
  | accepted202
  deriving DecidableEq

/-- Endpoint `app.post("/message")` of `part_000`: the correlated session
id (the `sessionId` query parameter the SSE transport puts in its endpoint
URL) is received but never read; delivery always goes to `currentTransport`
when one is set (`handlePostMessage` exists on every `SSEServerTransport`),
else the endpoint answers `202`. -/
def routeMessage (st : P0State) (_msgSessionId : Option String) : RouteResult :=
  match st.currentTransport with
  | some t => .delivered t
  | none => .accepted202

/-- The `mcp-server` variant of `app.post("/message")`: unconditionally
`res.status(200).json({ received: true })`. -/
def mcpMessageStatus : Nat := 200

/-- The two events that mutate the `part_000` session state.  `connect` is
the `/sse` handler (guarded by freshness of the generated id among open
sessions, the uniqueness invariant of the spec); `close` is the `req.on("close")`
cleanup of a previously opened session. -/
inductive P0Step : P0State → P0State → Prop
  | connect (s : P0State) (id : String) (t : TransportId)
      (hid : id ∉ s.opens.map Prod.fst) :
      P0Step s ⟨jsMapSet s.transports id t, some t, s.opens ++ [(id, t)]⟩
  | close (s : P0State) (id : String) (t : TransportId)
      (hmem : (id, t) ∈ s.opens) :
      P0Step s ⟨jsMapDelete s.transports id,
        if s.currentTransport = some t then none else s.currentTransport,
        s.opens.filter (fun p => decide (p ≠ (id, t)))⟩

inductive P0Reachable : P0State → Prop
  | init : P0Reachable P0State.init
  | step (s s' : P0State) : P0Reachable s → P0Step s s' → P0Reachable s'

/-- The `part_000` state invariant: the registry mirrors the open sessions,
session ids of open sessions are distinct, and the most-recent marker, when
set, is the transport of some registered session. -/
def P0Inv (s : P0State) : Prop :=
  s.transports = s.opens ∧ (s.opens.map Prod.fst).Nodup ∧
    ∀ t, s.currentTransport = some t → ∃ id, (id, t) ∈ s.opens

/-! ### Spec-modelled arithmetic evaluator

Modelled from the spec: the source call `eval(sanitized)` is the host
JavaScript engine, external to this repository; the spec describes it as "a
general-purpose expression evaluator with standard operator precedence".
We model it as tokenizing followed by recursive-descent parsing of
`expr := term (('+'|'-') term)*`, `term := factor (('*'|'/') factor)*`,
`factor := number | '(' expr ')'`, evaluated over `ℚ` with division by zero
failing.
-/

inductive Tok
  | num (n : Nat)
  | plus | minus | star | slash | lparen | rparen
  deriving DecidableEq

def opTok (c : Char) : Option Tok :=
  if c = '+' then some .plus
  else if c = '-' then some .minus
  else if c = '*' then some .star
  else if c = '/' then some .slash
  else if c = '(' then some .lparen
  else if c = ')' then some .rparen
  else none

def flushNum : Option Nat → List Tok
  | some n => [Tok.num n]
  | none => []

/-- Tokenizer worker: `pending` is the value of the digit run being read. -/
def tokAux (pending : Option Nat) : List Char → Option (List Tok)
  | [] => some (flushNum pending)
  | c :: cs =>
    if c.isDigit then tokAux (some (10 * pending.getD 0 + digitVal c)) cs
    else if jsWhitespace c then
      match tokAux none cs with
      | some ts => some (flushNum pending ++ ts)
      | none => none
    else
      match opTok c, tokAux none cs with
      | some t, some ts => some (flushNum pending ++ t :: ts)
      | _, _ => none

def tokenize (s : String) : Option (List Tok) := tokAux none s.data

inductive Expr
  | num (n : Nat)
  | add (a b : Expr)
  | sub (a b : Expr)
  | mul (a b : Expr)
  | div (a b : Expr)
  deriving DecidableEq

def esize : Expr → Nat
  | .num _ => 1
  | .add a b => esize a + esize b + 1
  | .sub a b => esize a + esize b + 1
  | .mul a b => esize a + esize b + 1
  | .div a b => esize a + esize b + 1

/-- Mathematical evaluation of an expression tree (the "mathematical
result"); division by zero fails. -/
def evalE : Expr → Option ℚ
  | .num n => some n
  | .add a b =>
    match evalE a, evalE b with
    | some x, some y => some (x + y)
    | _, _ => none
  | .sub a b =>
    match evalE a, evalE b with
    | some x, some y => some (x - y)
    | _, _ => none
  | .mul a b =>
    match evalE a, evalE b with
    | some x, some y => some (x * y)
    | _, _ => none
  | .div a b =>
    match evalE a, evalE b with
    | some x, some y => if y = 0 then none else some (x / y)
    | _, _ => none

mutual

/-- Precedence-aware printing at expression (lowest) level. -/
def renderE : Expr → String
  | .num n => natToString n
  | .add a b => renderE a ++ "+" ++ renderT b
  | .sub a b => renderE a ++ "-" ++ renderT b
  | .mul a b => renderT a ++ "*" ++ renderF b
  | .div a b => renderT a ++ "/" ++ renderF b

/-- Printing at term level: sums are parenthesized. -/
def renderT : Expr → String
  | .num n => natToString n
  | .add a b => "(" ++ (renderE a ++ "+" ++ renderT b) ++ ")"
  | .sub a b => "(" ++ (renderE a ++ "-" ++ renderT b) ++ ")"
  | .mul a b => renderT a ++ "*" ++ renderF b
  | .div a b => renderT a ++ "/" ++ renderF b

/-- Printing at factor level: every compound expression is parenthesized. -/
def renderF : Expr → String
  | .num n => natToString n
  | .add a b => "(" ++ (renderE a ++ "+" ++ renderT b) ++ ")"
  | .sub a b => "(" ++ (renderE a ++ "-" ++ renderT b) ++ ")"
  | .mul a b => "(" ++ (renderT a ++ "*" ++ renderF b) ++ ")"
  | .div a b => "(" ++ (renderT a ++ "/" ++ renderF b) ++ ")"

end

mutual

def toksE : Expr → List Tok
  | .num n => [Tok.num n]
  | .add a b => toksE a ++ Tok.plus :: toksT b
  | .sub a b => toksE a ++ Tok.minus :: toksT b
  | .mul a b => toksT a ++ Tok.star :: toksF b
  | .div a b => toksT a ++ Tok.slash :: toksF b

def toksT : Expr → List Tok
  | .num n => [Tok.num n]
  | .add a b => Tok.lparen :: (toksE a ++ Tok.plus :: toksT b) ++ [Tok.rparen]
  | .sub a b => Tok.lparen :: (toksE a ++ Tok.minus :: toksT b) ++ [Tok.rparen]
  | .mul a b => toksT a ++ Tok.star :: toksF b
  | .div a b => toksT a ++ Tok.slash :: toksF b

def toksF : Expr → List Tok
  | .num n => [Tok.num n]
  | .add a b => Tok.lparen :: (toksE a ++ Tok.plus :: toksT b) ++ [Tok.rparen]
  | .sub a b => Tok.lparen :: (toksE a ++ Tok.minus :: toksT b) ++ [Tok.rparen]
  | .mul a b => Tok.lparen :: (toksT a ++ Tok.star :: toksF b) ++ [Tok.rparen]
  | .div a b => Tok.lparen :: (toksT a ++ Tok.slash :: toksF b) ++ [Tok.rparen]

end

mutual

def pExpr (fuel : Nat) (ts : List Tok) : Option (Expr × List Tok) :=
  match fuel with
  | 0 => none
  | fuel + 1 =>
    match pTerm fuel ts with
    | some (a, ts1) => pExprRest fuel a ts1
    | none => none

def pExprRest (fuel : Nat) (a : Expr) (ts : List Tok) : Option (Expr × List Tok) :=
  match fuel with
  | 0 => none
  | fuel + 1 =>
    match ts with
    | Tok.plus :: ts1 =>
      match pTerm fuel ts1 with
      | some (b, ts2) => pExprRest fuel (Expr.add a b) ts2
      | none => none
    | Tok.minus :: ts1 =>
      match pTerm fuel ts1 with
      | some (b, ts2) => pExprRest fuel (Expr.sub a b) ts2
      | none => none
    | _ => some (a, ts)

def pTerm (fuel : Nat) (ts : List Tok) : Option (Expr × List Tok) :=
  match fuel with
  | 0 => none
  | fuel + 1 =>
    match pFactor fuel ts with
    | some (a, ts1) => pTermRest fuel a ts1
    | none => none

def pTermRest (fuel : Nat) (a : Expr) (ts : List Tok) : Option (Expr × List Tok) :=
  match fuel with
  | 0 => none
  | fuel + 1 =>
    match ts with
    | Tok.star :: ts1 =>
      match pFactor fuel ts1 with
      | some (b, ts2) => pTermRest fuel (Expr.mul a b) ts2
      | none => none
    | Tok.slash :: ts1 =>
      match pFactor fuel ts1 with
      | some (b, ts2) => pTermRest fuel (Expr.div a b) ts2
      | none => none
    | _ => some (a, ts)

def pFactor (fuel : Nat) (ts : List Tok) : Option (Expr × List Tok) :=
  match fuel with
  | 0 => none
  | fuel + 1 =>
    match ts with
    | Tok.num n :: ts1 => some (Expr.num n, ts1)
    | Tok.lparen :: ts1 =>
      match pExpr fuel ts1 with
      | some (e, Tok.rparen :: ts2) => some (e, ts2)
      | _ => none
    | _ => none

end

def parseExpr (ts : List Tok) : Option Expr :=
  match pExpr (10 * ts.length + 10) ts with
  | some (e, []) => some e
  | _ => none

/-- Modelled from the spec: the host `eval` applied to the sanitized
arithmetic expression is not part of this repository; the spec describes it
as a general-purpose expression evaluator with standard operator
precedence, which this tokenizer + recursive-descent parser + `evalE`
realizes over `ℚ`. -/
def calcEval (s : String) : Option ℚ :=
  match tokenize s with
  | some ts =>
    match parseExpr ts with
    | some e => evalE e
    | none => none
  | none => none

/-- Left spine of `*` / `/` chains (`true` = `*`): a term prints as its
leading factor followed by this chain. -/
def tchain : Expr → Expr × List (Bool × Expr)
  | .mul a b => ((tchain a).1, (tchain a).2 ++ [(true, b)])
  | .div a b => ((tchain a).1, (tchain a).2 ++ [(false, b)])
  | e => (e, [])

/-- Left spine of `+` / `-` chains (`true` = `+`). -/
def echain : Expr → Expr × List (Bool × Expr)
  | .add a b => ((echain a).1, (echain a).2 ++ [(true, b)])
  | .sub a b => ((echain a).1, (echain a).2 ++ [(false, b)])
  | e => (e, [])

def rebuildT (acc : Expr) : List (Bool × Expr) → Expr
  | [] => acc
  | (true, b) :: l => rebuildT (Expr.mul acc b) l
  | (false, b) :: l => rebuildT (Expr.div acc b) l

def rebuildE (acc : Expr) : List (Bool × Expr) → Expr
  | [] => acc
  | (true, b) :: l => rebuildE (Expr.add acc b) l
  | (false, b) :: l => rebuildE (Expr.sub acc b) l

def tailToksT (l : List (Bool × Expr)) : List Tok :=
  l.flatMap (fun p => (if p.1 then Tok.star else Tok.slash) :: toksF p.2)

def tailToksE (l : List (Bool × Expr)) : List Tok :=
  l.flatMap (fun p => (if p.1 then Tok.plus else Tok.minus) :: toksT p.2)

def sizeL (l : List (Bool × Expr)) : Nat :=
  (l.map (fun p => 1 + esize p.2)).sum

/-- The next token (if any) does not continue a sum or a product. -/
def noExprOpHead : List Tok → Prop
  | [] => True
  | t :: _ => t ≠ Tok.plus ∧ t ≠ Tok.minus ∧ t ≠ Tok.star ∧ t ≠ Tok.slash

/-- The next token (if any) does not continue a product. -/
def noTermOpHead : List Tok → Prop
  | [] => True
  | t :: _ => t ≠ Tok.star ∧ t ≠ Tok.slash

/-- The next character (if any) is not a digit (so a digit run ends here). -/
def headNotDigit : List Char → Prop
  | [] => True
  | c :: _ => c.isDigit = false

/-- Extra fuel needed by `pTerm` beyond `10 * esize`: parenthesized sums
cost a few more calls. -/
def needT : Expr → Nat
  | .add _ _ => 10
  | .sub _ _ => 10
  | _ => 1

/-! ## Theorems -/

theorem jsMapGet_nil (k : String) : jsMapGet ([] : List (String × α)) k = none := rfl

theorem jsMapGet_cons (p : String × α) (m : List (String × α)) (k : String) :
    jsMapGet (p :: m) k = if p.1 = k then some p.2 else jsMapGet m k := by
  by_cases h : p.1 = k <;> simp [jsMapGet, List.find?, h]

theorem jsMapHas_iff_get (m : List (String × α)) (k : String) :
    jsMapHas m k = true ↔ ∃ v, jsMapGet m k = some v := by
  induction m with
  | nil => simp [jsMapHas, jsMapGet_nil]
  | cons p m ih =>
    by_cases h : p.1 = k
    · simp [jsMapHas, jsMapGet_cons, h]
    · simpa [jsMapHas, jsMapGet_cons, h] using ih

/-- Setting then getting the same key returns the new value (insert or overwrite). -/
theorem jsMapGet_set_self (m : List (String × α)) (k : String) (v : α) :
    jsMapGet (jsMapSet m k v) k = some v := by
  unfold jsMapSet
  by_cases hhas : jsMapHas m k = true
  · simp only [hhas, if_true]
    induction m with
    | nil => simp [jsMapHas] at hhas
    | cons p m ih =>
      by_cases h : p.1 = k
      · simp [jsMapGet_cons, h]
      · have hhas' : jsMapHas m k = true := by
          simpa [jsMapHas, h] using hhas
        simpa [jsMapGet_cons, h] using ih hhas'
  · simp only [hhas]
    induction m with
    | nil => simp [jsMapGet_cons]
    | cons p m ih =>
      have h : ¬ p.1 = k := by
        intro h; exact hhas (by simp [jsMapHas, h])
      have hhas' : ¬ jsMapHas m k = true := by
        intro h'; exact hhas (by simp [jsMapHas] at h' ⊢; right; exact h')
      simpa [jsMapGet_cons, h] using ih hhas'

theorem jsMapGet_overwrite_ne (m : List (String × α)) (k k' : String) (v : α)
    (h : k ≠ k') :
    jsMapGet (m.map (fun p => if p.1 = k then (k, v) else p)) k' = jsMapGet m k' := by
  induction m with
  | nil => rfl
  | cons p m ih =>
    by_cases hp : p.1 = k
    · have hp' : ¬ p.1 = k' := by rw [hp]; exact h
      rw [List.map_cons, jsMapGet_cons, jsMapGet_cons]
      simp only [hp, if_true, if_neg h, if_neg hp', ih]
    · rw [List.map_cons, jsMapGet_cons, jsMapGet_cons]
      simp only [hp, if_false, ih]

theorem jsMapGet_append_single_ne (m : List (String × α)) (k k' : String) (v : α)
    (h : k ≠ k') :
    jsMapGet (m ++ [(k, v)]) k' = jsMapGet m k' := by
  induction m with
  | nil => simp [jsMapGet_cons, jsMapGet_nil, h]
  | cons p m ih =>
    rw [List.cons_append, jsMapGet_cons, jsMapGet_cons, ih]

/-- A `set` leaves every other key unchanged. -/
theorem jsMapGet_set_ne (m : List (String × α)) (k k' : String) (v : α) (h : k ≠ k') :
    jsMapGet (jsMapSet m k v) k' = jsMapGet m k' := by
  unfold jsMapSet
  by_cases hhas : jsMapHas m k = true
  · simp only [hhas, if_true]
    exact jsMapGet_overwrite_ne m k k' v h
  · simp only [hhas, if_false]
    exact jsMapGet_append_single_ne m k k' v h

theorem jsMapDelete_cons (p : String × α) (m : List (String × α)) (k : String) :
    jsMapDelete (p :: m) k =
      if p.1 = k then jsMapDelete m k else p :: jsMapDelete m k := by
  by_cases hp : p.1 = k <;> simp [jsMapDelete, List.filter_cons, hp]

/-- A `delete` removes the key. -/
theorem jsMapGet_delete_self (m : List (String × α)) (k : String) :
    jsMapGet (jsMapDelete m k) k = none := by
  induction m with
  | nil => rfl
  | cons p m ih =>
    rw [jsMapDelete_cons]
    by_cases h : p.1 = k
    · simpa [h] using ih
    · rw [if_neg h, jsMapGet_cons, if_neg h]
      exact ih

/-- A `delete` leaves every other key unchanged. -/
theorem jsMapGet_delete_ne (m : List (String × α)) (k k' : String) (h : k ≠ k') :
    jsMapGet (jsMapDelete m k) k' = jsMapGet m k' := by
  induction m with
  | nil => rfl
  | cons p m ih =>
    rw [jsMapDelete_cons]
    by_cases hp : p.1 = k
    · have hp' : ¬ p.1 = k' := by rw [hp]; exact h
      rw [if_pos hp, jsMapGet_cons, if_neg hp']
      exact ih
    · rw [if_neg hp, jsMapGet_cons, jsMapGet_cons, ih]

/-- Deleting an absent key is a no-op (idempotence of `unregister`). -/
theorem jsMapDelete_absent (m : List (String × α)) (k : String)
    (h : jsMapGet m k = none) : jsMapDelete m k = m := by
  induction m with
  | nil => rfl
  | cons p m ih =>
    rw [jsMapGet_cons] at h
    by_cases hp : p.1 = k
    · rw [if_pos hp] at h; exact absurd h (by simp)
    · rw [if_neg hp] at h
      rw [jsMapDelete_cons, if_neg hp, ih h]

theorem jsMapDelete_delete (m : List (String × α)) (k : String) :
    jsMapDelete (jsMapDelete m k) k = jsMapDelete m k :=
  jsMapDelete_absent _ _ (jsMapGet_delete_self m k)

theorem keys_nodup_set (m : List (String × α)) (k : String) (v : α)
    (h : (m.map Prod.fst).Nodup) : ((jsMapSet m k v).map Prod.fst).Nodup := by
  unfold jsMapSet
  by_cases hhas : jsMapHas m k = true
  · simp only [hhas, if_true]
    have : (m.map (fun p => if p.1 = k then (k, v) else p)).map Prod.fst
        = m.map Prod.fst := by
      rw [List.map_map]
      apply List.map_congr_left
      intro p _
      by_cases hp : p.1 = k
      · simp [hp]
      · simp [hp]
    rw [this]; exact h
  · rw [if_neg hhas]
    rw [List.map_append, List.map_cons, List.map_nil]
    rw [List.nodup_append]
    refine ⟨h, List.nodup_singleton k, ?_⟩
    intro a ha hb
    rw [show ((k, v).1 : String) = k from rfl, List.mem_singleton] at hb
    obtain ⟨p, hp, hpk⟩ := List.mem_map.mp ha
    apply hhas
    unfold jsMapHas
    rw [List.any_eq_true]
    exact ⟨p, hp, by simp [hpk, hb]⟩

theorem keys_nodup_delete (m : List (String × α)) (k : String)
    (h : (m.map Prod.fst).Nodup) : ((jsMapDelete m k).map Prod.fst).Nodup := by
  induction m with
  | nil => exact h
  | cons p m ih =>
    rw [List.map_cons, List.nodup_cons] at h
    rw [jsMapDelete_cons]
    by_cases hp : p.1 = k
    · rw [if_pos hp]; exact ih h.2
    · rw [if_neg hp, List.map_cons, List.nodup_cons]
      refine ⟨?_, ih h.2⟩
      intro hmem
      obtain ⟨q, hq, hq1⟩ := List.mem_map.mp hmem
      exact h.1 (List.mem_map.mpr ⟨q, List.mem_of_mem_filter hq, hq1⟩)

/-- In every reachable registry state the session ids (keys) are pairwise
distinct: at most one entry per sessionId. -/
theorem regReachable_keys_nodup (m : List (String × α)) (h : RegReachable m) :
    (m.map Prod.fst).Nodup := by
  induction h with
  | init => exact List.nodup_nil
  | set m k v _ ih => exact keys_nodup_set m k v ih
  | del m k _ ih => exact keys_nodup_delete m k ih

theorem digitVal_digitChar (d : Nat) (h : d < 10) : digitVal (digitChar d) = d := by
  interval_cases d <;> rfl

theorem digitsVal_append (l : List Char) (c : Char) :
    digitsVal (l ++ [c]) = 10 * digitsVal l + digitVal c := by
  unfold digitsVal
  rw [List.foldl_append]
  rfl

theorem digitsVal_natDigits (n : Nat) : digitsVal (natDigits n) = n := by
  induction n using Nat.strong_induction_on with
  | _ n ih =>
    unfold natDigits
    by_cases h : n < 10
    · rw [dif_pos h]
      show 10 * 0 + digitVal (digitChar n) = n
      rw [digitVal_digitChar n h]
      omega
    · rw [dif_neg h]
      rw [digitsVal_append, ih (n / 10) (Nat.div_lt_self (by omega) (by omega)),
        digitVal_digitChar (n % 10) (Nat.mod_lt _ (by omega))]
      omega

theorem natToString_injective (m n : Nat) (h : natToString m = natToString n) :
    m = n := by
  have hd : natDigits m = natDigits n := congrArg String.data h
  have := congrArg digitsVal hd
  rwa [digitsVal_natDigits, digitsVal_natDigits] at this

theorem digitChar_isDigit (d : Nat) : (digitChar d).isDigit = true := by
  unfold digitChar
  split <;> decide

theorem natDigits_all_digit (n : Nat) : ∀ c ∈ natDigits n, c.isDigit = true := by
  induction n using Nat.strong_induction_on with
  | _ n ih =>
    unfold natDigits
    by_cases h : n < 10
    · rw [dif_pos h]
      intro c hc
      rw [List.mem_singleton] at hc
      subst hc
      exact digitChar_isDigit n
    · rw [dif_neg h]
      intro c hc
      rw [List.mem_append] at hc
      rcases hc with hc | hc
      · exact ih (n / 10) (Nat.div_lt_self (by omega) (by omega)) c hc
      · rw [List.mem_singleton] at hc
        subst hc
        exact digitChar_isDigit (n % 10)

theorem digit_append_cancel (d1 d2 r1 r2 : List Char)
    (h1 : ∀ c ∈ d1, c.isDigit = true) (h2 : ∀ c ∈ d2, c.isDigit = true)
    (h : d1 ++ '-' :: r1 = d2 ++ '-' :: r2) : d1 = d2 ∧ r1 = r2 := by
  induction d1 generalizing d2 with
  | nil =>
    cases d2 with
    | nil => simpa using h
    | cons c d2 =>
      rw [List.nil_append, List.cons_append, List.cons.injEq] at h
      have hc := h2 c (List.mem_cons_self c d2)
      rw [← h.1] at hc
      exact absurd hc (by decide)
  | cons c d1 ih =>
    cases d2 with
    | nil =>
      rw [List.nil_append, List.cons_append, List.cons.injEq] at h
      have hc := h1 c (List.mem_cons_self c d1)
      rw [h.1] at hc
      exact absurd hc (by decide)
    | cons c' d2 =>
      rw [List.cons_append, List.cons_append, List.cons.injEq] at h
      obtain ⟨he, hr⟩ := ih d2 (fun x hx => h1 x (List.mem_cons_of_mem c hx))
        (fun x hx => h2 x (List.mem_cons_of_mem c' hx)) h.2
      exact ⟨by rw [h.1, he], hr⟩

/-- The `part_000` generator is injective in the (timestamp, suffix) pair:
the `-` separator cannot occur inside the decimal digits. -/
theorem genSessionIdP0_injective (t1 t2 : Nat) (r1 r2 : String)
    (h : genSessionIdP0 t1 r1 = genSessionIdP0 t2 r2) : t1 = t2 ∧ r1 = r2 := by
  have hd : ("session-" ++ natToString t1 ++ "-" ++ r1).data
      = ("session-" ++ natToString t2 ++ "-" ++ r2).data := congrArg String.data h
  simp only [String.data_append] at hd
  have hd' : natDigits t1 ++ ('-' :: r1.data) = natDigits t2 ++ ('-' :: r2.data) := by
    have hh : "session-".data ++ (natDigits t1 ++ ('-' :: r1.data))
        = "session-".data ++ (natDigits t2 ++ ('-' :: r2.data)) := by
      simpa [natToString, List.append_assoc] using hd
    exact List.append_cancel_left hh
  obtain ⟨he, hr⟩ := digit_append_cancel _ _ _ _
    (fun c hc => natDigits_all_digit t1 c hc)
    (fun c hc => natDigits_all_digit t2 c hc) hd'
  constructor
  · have := congrArg digitsVal he
    rwa [digitsVal_natDigits, digitsVal_natDigits] at this
  · exact congrArg String.mk hr

theorem jsMapHas_iff_mem_keys (m : List (String × α)) (k : String) :
    jsMapHas m k = true ↔ k ∈ m.map Prod.fst := by
  unfold jsMapHas
  rw [List.any_eq_true]
  constructor
  · rintro ⟨p, hp, hd⟩
    exact List.mem_map.mpr ⟨p, hp, of_decide_eq_true hd⟩
  · intro h
    obtain ⟨p, hp, hpk⟩ := List.mem_map.mp h
    exact ⟨p, hp, decide_eq_true hpk⟩

theorem jsMapSet_fresh (m : List (String × α)) (k : String) (v : α)
    (h : k ∉ m.map Prod.fst) : jsMapSet m k v = m ++ [(k, v)] := by
  unfold jsMapSet
  rw [if_neg]
  intro hhas
  exact h ((jsMapHas_iff_mem_keys m k).mp hhas)

theorem keys_nodup_unique (l : List (String × α))
    (hnd : (l.map Prod.fst).Nodup) (k : String) (t : α) (hmem : (k, t) ∈ l) :
    ∀ p ∈ l, p.1 = k → p = (k, t) := by
  induction l with
  | nil => simp at hmem
  | cons q l ih =>
    rw [List.map_cons, List.nodup_cons] at hnd
    intro p hp hpk
    rcases List.mem_cons.mp hmem with hq | hq
    · rcases List.mem_cons.mp hp with hp' | hp'
      · rw [hp', ← hq]
      · exfalso
        apply hnd.1
        have hq1 : q.1 = k := by rw [← hq]
        rw [hq1]
        exact List.mem_map.mpr ⟨p, hp', hpk⟩
    · rcases List.mem_cons.mp hp with hp' | hp'
      · exfalso
        apply hnd.1
        have : q.1 = k := by rw [← hp']; exact hpk
        rw [this]
        exact List.mem_map.mpr ⟨(k, t), hq, rfl⟩
      · exact ih hnd.2 hq p hp' hpk

/-- With distinct keys, deleting by key removes exactly the one pair. -/
theorem jsMapDelete_eq_filter_pair [DecidableEq α] (l : List (String × α))
    (hnd : (l.map Prod.fst).Nodup) (k : String) (t : α) (hmem : (k, t) ∈ l) :
    jsMapDelete l k = l.filter (fun p => decide (p ≠ (k, t))) := by
  unfold jsMapDelete
  apply List.filter_congr
  intro p hp
  by_cases hpk : p.1 = k
  · have : p = (k, t) := keys_nodup_unique l hnd k t hmem p hp hpk
    simp [this]
  · have hne : p ≠ (k, t) := by
      intro hcontra
      exact hpk (by rw [hcontra])
    simp [hpk, hne]

theorem p0Inv_init : P0Inv P0State.init :=
  ⟨rfl, List.nodup_nil, by intro t h; exact absurd h (by simp [P0State.init])⟩

theorem p0Step_inv (s s' : P0State) (hstep : P0Step s s') (hinv : P0Inv s) :
    P0Inv s' := by
  obtain ⟨htr, hnd, hcur⟩ := hinv
  cases hstep with
  | connect id t hid =>
    refine ⟨?_, ?_, ?_⟩
    · show jsMapSet s.transports id t = s.opens ++ [(id, t)]
      rw [htr]
      exact jsMapSet_fresh s.opens id t hid
    · show ((s.opens ++ [(id, t)]).map Prod.fst).Nodup
      rw [List.map_append, List.map_cons, List.map_nil, List.nodup_append]
      refine ⟨hnd, List.nodup_singleton id, ?_⟩
      intro a ha hb
      rw [show ((id, t).1 : String) = id from rfl, List.mem_singleton] at hb
      rw [hb] at ha
      exact hid ha
    · intro t' ht'
      have : t' = t := by
        have h2 := ht'
        simp only at h2
        exact (Option.some.injEq _ _).mp h2.symm
      rw [this]
      exact ⟨id, List.mem_append.mpr (Or.inr (List.mem_singleton.mpr rfl))⟩
  | close id t hmem =>
    refine ⟨?_, ?_, ?_⟩
    · show jsMapDelete s.transports id = s.opens.filter (fun p => decide (p ≠ (id, t)))
      rw [htr]
      exact jsMapDelete_eq_filter_pair s.opens hnd id t hmem
    · show ((s.opens.filter (fun p => decide (p ≠ (id, t)))).map Prod.fst).Nodup
      exact (List.Sublist.map Prod.fst (List.filter_sublist s.opens)).nodup hnd
    · intro t' ht'
      simp only at ht'
      by_cases hc : s.currentTransport = some t
      · rw [if_pos hc] at ht'
        exact absurd ht' (by simp)
      · rw [if_neg hc] at ht'
        obtain ⟨id', hmem'⟩ := hcur t' ht'
        have hne : (id', t') ≠ (id, t) := by
          intro hcontra
          apply hc
          rw [ht']
          exact congrArg some (congrArg Prod.snd hcontra)
        exact ⟨id', List.mem_filter.mpr ⟨hmem', decide_eq_true hne⟩⟩

/-- The `part_000` invariant holds in every reachable state. -/
theorem p0Reachable_inv (s : P0State) (h : P0Reachable s) : P0Inv s := by
  induction h with
  | init => exact p0Inv_init
  | step s s' _ hstep ih => exact p0Step_inv s s' hstep ih

theorem authenticate_pass (h : String) (apiKey : String)
    (hb : jsStartsWith h "Bearer " = true) (hk : jsSubstring h 7 = apiKey) :
    authenticate (some h) apiKey = .pass := by
  have hne : h ≠ "" := by
    intro hcontra
    rw [hcontra] at hb
    exact absurd hb (by decide)
  unfold authenticate
  rw [if_neg, if_neg]
  · simp only [Option.getD]
    rw [hk]
    simp
  · intro hcontra
    rcases Bool.or_eq_true_iff.mp hcontra with hcontra | hcontra
    · simp [jsTruthyStr, hne] at hcontra
    · simp only [Option.getD] at hcontra
      rw [hb] at hcontra
      exact absurd hcontra (by decide)

theorem dispatch_of_error (fmt : Option String → Except String String)
    (evalFn : String → Option ℚ) (showNum : ℚ → String)
    (name : String) (args : ToolArgs) (msg : String)
    (h : handleTool fmt evalFn showNum name args = .error msg) :
    dispatch fmt evalFn showNum name args = ⟨"Error: " ++ msg, true⟩ := by
  unfold dispatch
  rw [h]

theorem dispatch_of_ok (fmt : Option String → Except String String)
    (evalFn : String → Option ℚ) (showNum : ℚ → String)
    (name : String) (args : ToolArgs) (r : ToolResult)
    (h : handleTool fmt evalFn showNum name args = .ok r) :
    dispatch fmt evalFn showNum name args = r := by
  unfold dispatch
  rw [h]

theorem handleTool_ok_isError_false (fmt : Option String → Except String String)
    (evalFn : String → Option ℚ) (showNum : ℚ → String)
    (name : String) (args : ToolArgs) (r : ToolResult)
    (h : handleTool fmt evalFn showNum name args = .ok r) : r.isError = false := by
  unfold handleTool at h
  split at h
  · split at h
    · rw [Except.ok.injEq] at h
      rw [← h]
    · exact absurd h (by simp)
  · split at h
    · split at h
      · rw [Except.ok.injEq] at h
        rw [← h]
      · exact absurd h (by simp)
    · split at h
      · split at h
        · exact absurd h (by simp)
        · rw [Except.ok.injEq] at h
          rw [← h]
      · exact absurd h (by simp)

theorem handleTool_get_current_time (fmt : Option String → Except String String)
    (evalFn : String → Option ℚ) (showNum : ℚ → String) (args : ToolArgs) :
    handleTool fmt evalFn showNum "get_current_time" args =
      match fmt (jsTzArg args.timezone) with
      | .ok timeString => .ok ⟨timeText (jsTzArg args.timezone) timeString, false⟩
      | .error e => .error e := by
  unfold handleTool
  rw [if_pos rfl]

theorem handleTool_calculate (fmt : Option String → Except String String)
    (evalFn : String → Option ℚ) (showNum : ℚ → String) (args : ToolArgs) :
    handleTool fmt evalFn showNum "calculate" args =
      match calculate evalFn (args.expression.getD "") with
      | .ok q => .ok ⟨args.expression.getD "" ++ " = " ++ showNum q, false⟩
      | .error e => .error e := by
  unfold handleTool
  rw [if_neg (by decide), if_pos rfl]

theorem handleTool_echo (fmt : Option String → Except String String)
    (evalFn : String → Option ℚ) (showNum : ℚ → String) (args : ToolArgs) :
    handleTool fmt evalFn showNum "echo" args =
      if args.message.getD "" = "" then .error "Message is required"
      else .ok ⟨if args.uppercase.getD false then (args.message.getD "").toUpper
                else args.message.getD "", false⟩ := by
  unfold handleTool
  rw [if_neg (by decide), if_neg (by decide), if_pos rfl]

theorem handleTool_unknown (fmt : Option String → Except String String)
    (evalFn : String → Option ℚ) (showNum : ℚ → String)
    (name : String) (args : ToolArgs)
    (h1 : name ≠ "get_current_time") (h2 : name ≠ "calculate") (h3 : name ≠ "echo") :
    handleTool fmt evalFn showNum name args = .error ("Unknown tool: " ++ name) := by
  unfold handleTool
  rw [if_neg h1, if_neg h2, if_neg h3]

theorem calculate_empty (evalFn : String → Option ℚ) :
    calculate evalFn "" = .error "Expression is required" := rfl

theorem string_filter_allowed_ne (s : String) :
    (⟨s.data.filter allowedChar⟩ : String) ≠ s ↔ ∃ c ∈ s.data, allowedChar c = false := by
  constructor
  · intro h
    by_contra hall
    push_neg at hall
    apply h
    have : s.data.filter allowedChar = s.data := by
      apply List.filter_eq_self.mpr
      intro a ha
      have := hall a ha
      simp only [Bool.not_eq_false] at this
      exact this
    rw [this]
  · rintro ⟨c, hc, hbad⟩ h
    have hd : s.data.filter allowedChar = s.data := congrArg String.data h
    have := List.filter_eq_self.mp hd c hc
    rw [hbad] at this
    exact absurd this (by decide)

theorem calculate_invalid_chars (evalFn : String → Option ℚ) (s : String)
    (hne : s ≠ "") (hbad : ∃ c ∈ s.data, allowedChar c = false) :
    calculate evalFn s = .error "Invalid characters in expression" := by
  unfold calculate
  rw [if_neg hne]
  simp only
  rw [if_pos ((string_filter_allowed_ne s).mpr hbad)]

theorem calculate_clean (evalFn : String → Option ℚ) (s : String)
    (hne : s ≠ "") (hok : ∀ c ∈ s.data, allowedChar c = true) :
    calculate evalFn s =
      match evalFn s with
      | some q => .ok q
      | none => .error "Evaluation failed" := by
  have hfix : (⟨s.data.filter allowedChar⟩ : String) = s := by
    have : s.data.filter allowedChar = s.data := List.filter_eq_self.mpr hok
    rw [this]
  unfold calculate
  rw [if_neg hne]
  simp only
  rw [if_neg (by rw [hfix]; intro hc; exact hc rfl), hfix]

theorem esize_pos (e : Expr) : 1 ≤ esize e := by
  cases e <;> unfold esize <;> omega

theorem sizeL_nil : sizeL [] = 0 := rfl

theorem sizeL_append (l1 l2 : List (Bool × Expr)) :
    sizeL (l1 ++ l2) = sizeL l1 + sizeL l2 := by
  simp [sizeL, List.map_append, List.sum_append]

theorem sizeL_cons (p : Bool × Expr) (l : List (Bool × Expr)) :
    sizeL (p :: l) = 1 + esize p.2 + sizeL l := by
  simp [sizeL, List.map_cons, List.sum_cons]

theorem rebuildT_append (acc : Expr) (l1 l2 : List (Bool × Expr)) :
    rebuildT acc (l1 ++ l2) = rebuildT (rebuildT acc l1) l2 := by
  induction l1 generalizing acc with
  | nil => rfl
  | cons p l1 ih =>
    obtain ⟨b, e⟩ := p
    cases b <;> simp [rebuildT, ih]

theorem rebuildE_append (acc : Expr) (l1 l2 : List (Bool × Expr)) :
    rebuildE acc (l1 ++ l2) = rebuildE (rebuildE acc l1) l2 := by
  induction l1 generalizing acc with
  | nil => rfl
  | cons p l1 ih =>
    obtain ⟨b, e⟩ := p
    cases b <;> simp [rebuildE, ih]

theorem tchain_rebuild (e : Expr) : rebuildT (tchain e).1 (tchain e).2 = e := by
  induction e with
  | num n => rfl
  | add a b _ _ => rfl
  | sub a b _ _ => rfl
  | mul a b iha _ => simp [tchain, rebuildT_append, iha, rebuildT]
  | div a b iha _ => simp [tchain, rebuildT_append, iha, rebuildT]

theorem echain_rebuild (e : Expr) : rebuildE (echain e).1 (echain e).2 = e := by
  induction e with
  | num n => rfl
  | mul a b _ _ => rfl
  | div a b _ _ => rfl
  | add a b iha _ => simp [echain, rebuildE_append, iha, rebuildE]
  | sub a b iha _ => simp [echain, rebuildE_append, iha, rebuildE]

theorem tchain_size (e : Expr) :
    esize e = esize (tchain e).1 + sizeL (tchain e).2 := by
  induction e with
  | num n => rfl
  | add a b _ _ => rfl
  | sub a b _ _ => rfl
  | mul a b iha _ =>
    show esize a + esize b + 1
        = esize (tchain a).1 + sizeL ((tchain a).2 ++ [(true, b)])
    simp only [sizeL_append, sizeL_cons, sizeL_nil, Prod.snd]
    omega
  | div a b iha _ =>
    show esize a + esize b + 1
        = esize (tchain a).1 + sizeL ((tchain a).2 ++ [(false, b)])
    simp only [sizeL_append, sizeL_cons, sizeL_nil, Prod.snd]
    omega

theorem echain_size (e : Expr) :
    esize e = esize (echain e).1 + sizeL (echain e).2 := by
  induction e with
  | num n => rfl
  | mul a b _ _ => rfl
  | div a b _ _ => rfl
  | add a b iha _ =>
    show esize a + esize b + 1
        = esize (echain a).1 + sizeL ((echain a).2 ++ [(true, b)])
    simp only [sizeL_append, sizeL_cons, sizeL_nil, Prod.snd]
    omega
  | sub a b iha _ =>
    show esize a + esize b + 1
        = esize (echain a).1 + sizeL ((echain a).2 ++ [(false, b)])
    simp only [sizeL_append, sizeL_cons, sizeL_nil, Prod.snd]
    omega

theorem tchain_mem (e : Expr) : ∀ p ∈ (tchain e).2, esize p.2 < esize e := by
  induction e with
  | num n => intro p hp; exact absurd hp (by simp [tchain])
  | add a b _ _ => intro p hp; exact absurd hp (by simp [tchain])
  | sub a b _ _ => intro p hp; exact absurd hp (by simp [tchain])
  | mul a b iha _ =>
    intro p hp
    rcases List.mem_append.mp hp with hp | hp
    · have := iha p hp
      show esize p.2 < esize a + esize b + 1
      omega
    · rw [List.mem_singleton] at hp
      subst hp
      show esize b < esize a + esize b + 1
      have := esize_pos a
      omega
  | div a b iha _ =>
    intro p hp
    rcases List.mem_append.mp hp with hp | hp
    · have := iha p hp
      show esize p.2 < esize a + esize b + 1
      omega
    · rw [List.mem_singleton] at hp
      subst hp
      show esize b < esize a + esize b + 1
      have := esize_pos a
      omega

theorem echain_mem (e : Expr) : ∀ p ∈ (echain e).2, esize p.2 < esize e := by
  induction e with
  | num n => intro p hp; exact absurd hp (by simp [echain])
  | mul a b _ _ => intro p hp; exact absurd hp (by simp [echain])
  | div a b _ _ => intro p hp; exact absurd hp (by simp [echain])
  | add a b iha _ =>
    intro p hp
    rcases List.mem_append.mp hp with hp | hp
    · have := iha p hp
      show esize p.2 < esize a + esize b + 1
      omega
    · rw [List.mem_singleton] at hp
      subst hp
      show esize b < esize a + esize b + 1
      have := esize_pos a
      omega
  | sub a b iha _ =>
    intro p hp
    rcases List.mem_append.mp hp with hp | hp
    · have := iha p hp
      show esize p.2 < esize a + esize b + 1
      omega
    · rw [List.mem_singleton] at hp
      subst hp
      show esize b < esize a + esize b + 1
      have := esize_pos a
      omega

theorem tchain_toks (e : Expr) :
    toksT e = toksF (tchain e).1 ++ tailToksT (tchain e).2 := by
  induction e with
  | num n => rfl
  | add a b _ _ => simp [toksT, toksF, tchain, tailToksT]
  | sub a b _ _ => simp [toksT, toksF, tchain, tailToksT]
  | mul a b iha _ =>
    show toksT a ++ Tok.star :: toksF b
        = toksF (tchain a).1 ++ tailToksT ((tchain a).2 ++ [(true, b)])
    rw [iha]
    simp [tailToksT, List.append_assoc]
  | div a b iha _ =>
    show toksT a ++ Tok.slash :: toksF b
        = toksF (tchain a).1 ++ tailToksT ((tchain a).2 ++ [(false, b)])
    rw [iha]
    simp [tailToksT, List.append_assoc]

theorem needT_le (e : Expr) : needT e ≤ 10 := by
  cases e <;> simp [needT]

theorem noTermOp_of_noExprOp (ts : List Tok) (h : noExprOpHead ts) :
    noTermOpHead ts := by
  cases ts with
  | nil => trivial
  | cons t ts => exact ⟨h.2.2.1, h.2.2.2⟩

theorem noTermOpHead_tailToksE (L : List (Bool × Expr)) (rest : List Tok)
    (h : noExprOpHead rest) : noTermOpHead (tailToksE L ++ rest) := by
  cases L with
  | nil =>
    rw [show tailToksE [] = [] from rfl, List.nil_append]
    exact noTermOp_of_noExprOp rest h
  | cons p L =>
    obtain ⟨b, e⟩ := p
    cases b
    · rw [show tailToksE ((false, e) :: L)
          = Tok.minus :: (toksT e ++ tailToksE L) from rfl, List.cons_append]
      exact ⟨by simp, by simp⟩
    · rw [show tailToksE ((true, e) :: L)
          = Tok.plus :: (toksT e ++ tailToksE L) from rfl, List.cons_append]
      exact ⟨by simp, by simp⟩

theorem pExprRest_noop (fuel : Nat) (a : Expr) (ts : List Tok)
    (h : noExprOpHead ts) : pExprRest (fuel + 1) a ts = some (a, ts) := by
  cases ts with
  | nil => rfl
  | cons t ts =>
    obtain ⟨h1, h2, _, _⟩ := h
    cases t with
    | num n => rfl
    | plus => exact absurd rfl h1
    | minus => exact absurd rfl h2
    | star => rfl
    | slash => rfl
    | lparen => rfl
    | rparen => rfl

theorem pTermRest_noop (fuel : Nat) (a : Expr) (ts : List Tok)
    (h : noTermOpHead ts) : pTermRest (fuel + 1) a ts = some (a, ts) := by
  cases ts with
  | nil => rfl
  | cons t ts =>
    obtain ⟨h1, h2⟩ := h
    cases t with
    | num n => rfl
    | plus => rfl
    | minus => rfl
    | star => exact absurd rfl h1
    | slash => exact absurd rfl h2
    | lparen => rfl
    | rparen => rfl

theorem pTermRest_chain (l : List (Bool × Expr)) :
    ∀ (acc : Expr) (rest : List Tok) (fuel : Nat),
      (∀ p ∈ l, ∀ (rest2 : List Tok) (fuel2 : Nat), 10 * esize p.2 + 9 ≤ fuel2 →
        pFactor fuel2 (toksF p.2 ++ rest2) = some (p.2, rest2)) →
      10 * sizeL l + 1 ≤ fuel → noTermOpHead rest →
      pTermRest fuel acc (tailToksT l ++ rest) = some (rebuildT acc l, rest) := by
  induction l with
  | nil =>
    intro acc rest fuel _ hfuel hrest
    obtain ⟨f, rfl⟩ : ∃ f, fuel = f + 1 := ⟨fuel - 1, by omega⟩
    rw [show tailToksT [] = [] from rfl, List.nil_append,
      show rebuildT acc [] = acc from rfl]
    exact pTermRest_noop f acc rest hrest
  | cons p l ih =>
    intro acc rest fuel hfac hfuel hrest
    obtain ⟨b, e⟩ := p
    rw [sizeL_cons] at hfuel
    simp only [Prod.snd] at hfuel
    obtain ⟨f, rfl⟩ : ∃ f, fuel = f + 1 := ⟨fuel - 1, by omega⟩
    have hfe : pFactor f (toksF e ++ (tailToksT l ++ rest))
        = some (e, tailToksT l ++ rest) := by
      apply hfac (b, e) (List.mem_cons_self _ _)
      simp only [Prod.snd]
      have := esize_pos e
      omega
    have hrec : pTermRest f (if b then Expr.mul acc e else Expr.div acc e)
        (tailToksT l ++ rest)
        = some (rebuildT (if b then Expr.mul acc e else Expr.div acc e) l, rest) := by
      apply ih _ _ _ (fun q hq => hfac q (List.mem_cons_of_mem _ hq)) (by omega) hrest
    cases b
    · rw [show tailToksT ((false, e) :: l) ++ rest
          = Tok.slash :: (toksF e ++ (tailToksT l ++ rest)) by
            simp [tailToksT, List.append_assoc]]
      rw [show rebuildT acc ((false, e) :: l) = rebuildT (Expr.div acc e) l from rfl]
      show (match pFactor f (toksF e ++ (tailToksT l ++ rest)) with
        | some (b2, ts2) => pTermRest f (Expr.div acc b2) ts2
        | none => none) = some (rebuildT (Expr.div acc e) l, rest)
      rw [hfe]
      simpa using hrec
    · rw [show tailToksT ((true, e) :: l) ++ rest
          = Tok.star :: (toksF e ++ (tailToksT l ++ rest)) by
            simp [tailToksT, List.append_assoc]]
      rw [show rebuildT acc ((true, e) :: l) = rebuildT (Expr.mul acc e) l from rfl]
      show (match pFactor f (toksF e ++ (tailToksT l ++ rest)) with
        | some (b2, ts2) => pTermRest f (Expr.mul acc b2) ts2
        | none => none) = some (rebuildT (Expr.mul acc e) l, rest)
      rw [hfe]
      simpa using hrec

theorem pExprRest_chain (L : List (Bool × Expr)) :
    ∀ (acc : Expr) (rest : List Tok) (fuel : Nat),
      (∀ p ∈ L, ∀ (rest2 : List Tok) (fuel2 : Nat), 10 * esize p.2 + 10 ≤ fuel2 →
        noTermOpHead rest2 → pTerm fuel2 (toksT p.2 ++ rest2) = some (p.2, rest2)) →
      10 * sizeL L + 1 ≤ fuel → noExprOpHead rest →
      pExprRest fuel acc (tailToksE L ++ rest) = some (rebuildE acc L, rest) := by
  induction L with
  | nil =>
    intro acc rest fuel _ hfuel hrest
    obtain ⟨f, rfl⟩ : ∃ f, fuel = f + 1 := ⟨fuel - 1, by omega⟩
    rw [show tailToksE [] = [] from rfl, List.nil_append,
      show rebuildE acc [] = acc from rfl]
    exact pExprRest_noop f acc rest hrest
  | cons p L ih =>
    intro acc rest fuel hterm hfuel hrest
    obtain ⟨b, e⟩ := p
    rw [sizeL_cons] at hfuel
    simp only [Prod.snd] at hfuel
    obtain ⟨f, rfl⟩ : ∃ f, fuel = f + 1 := ⟨fuel - 1, by omega⟩
    have hte : pTerm f (toksT e ++ (tailToksE L ++ rest))
        = some (e, tailToksE L ++ rest) := by
      apply hterm (b, e) (List.mem_cons_self _ _)
      · simp only [Prod.snd]
        omega
      · exact noTermOpHead_tailToksE L rest hrest
    have hrec : pExprRest f (if b then Expr.add acc e else Expr.sub acc e)
        (tailToksE L ++ rest)
        = some (rebuildE (if b then Expr.add acc e else Expr.sub acc e) L, rest) := by
      apply ih _ _ _ (fun q hq => hterm q (List.mem_cons_of_mem _ hq)) (by omega) hrest
    cases b
    · rw [show tailToksE ((false, e) :: L) ++ rest
          = Tok.minus :: (toksT e ++ (tailToksE L ++ rest)) by
            simp [tailToksE, List.append_assoc]]
      rw [show rebuildE acc ((false, e) :: L) = rebuildE (Expr.sub acc e) L from rfl]
      show (match pTerm f (toksT e ++ (tailToksE L ++ rest)) with
        | some (b2, ts2) => pExprRest f (Expr.sub acc b2) ts2
        | none => none) = some (rebuildE (Expr.sub acc e) L, rest)
      rw [hte]
      simpa using hrec
    · rw [show tailToksE ((true, e) :: L) ++ rest
          = Tok.plus :: (toksT e ++ (tailToksE L ++ rest)) by
            simp [tailToksE, List.append_assoc]]
      rw [show rebuildE acc ((true, e) :: L) = rebuildE (Expr.add acc e) L from rfl]
      show (match pTerm f (toksT e ++ (tailToksE L ++ rest)) with
        | some (b2, ts2) => pExprRest f (Expr.add acc b2) ts2
        | none => none) = some (rebuildE (Expr.add acc e) L, rest)
      rw [hte]
      simpa using hrec

theorem pExpr_step (f : Nat) (ts ts1 : List Tok) (a : Expr)
    (h : pTerm f ts = some (a, ts1)) : pExpr (f + 1) ts = pExprRest f a ts1 := by
  show (match pTerm f ts with
    | some (a2, t2) => pExprRest f a2 t2
    | none => none) = _
  rw [h]

theorem pTerm_step (f : Nat) (ts ts1 : List Tok) (a : Expr)
    (h : pFactor f ts = some (a, ts1)) : pTerm (f + 1) ts = pTermRest f a ts1 := by
  show (match pFactor f ts with
    | some (a2, t2) => pTermRest f a2 t2
    | none => none) = _
  rw [h]

theorem pFactor_num (f : Nat) (m : Nat) (ts : List Tok) :
    pFactor (f + 1) (Tok.num m :: ts) = some (Expr.num m, ts) := rfl

theorem pFactor_lparen (f : Nat) (ts ts2 : List Tok) (e : Expr)
    (h : pExpr f ts = some (e, Tok.rparen :: ts2)) :
    pFactor (f + 1) (Tok.lparen :: ts) = some (e, ts2) := by
  simp only [pFactor]
  rw [h]

theorem echain_toks (e : Expr) :
    toksE e = toksT (echain e).1 ++ tailToksE (echain e).2 := by
  induction e with
  | num n => rfl
  | mul a b _ _ => simp [toksE, toksT, echain, tailToksE]
  | div a b _ _ => simp [toksE, toksT, echain, tailToksE]
  | add a b iha _ =>
    show toksE a ++ Tok.plus :: toksT b
        = toksT (echain a).1 ++ tailToksE ((echain a).2 ++ [(true, b)])
    rw [iha]
    simp [tailToksE, List.append_assoc]
  | sub a b iha _ =>
    show toksE a ++ Tok.minus :: toksT b
        = toksT (echain a).1 ++ tailToksE ((echain a).2 ++ [(false, b)])
    rw [iha]
    simp [tailToksE, List.append_assoc]

theorem noExprOpHead_rparen (ts : List Tok) : noExprOpHead (Tok.rparen :: ts) :=
  ⟨by decide, by decide, by decide, by decide⟩

/-- Round trip of the recursive-descent parser over the precedence-aware
printer, at all three grammar levels, by strong induction on size. -/
theorem parse_trip_aux (n : Nat) :
    ∀ e, esize e ≤ n →
      ((∀ (rest : List Tok) (fuel : Nat), 10 * esize e + 9 ≤ fuel →
          pFactor fuel (toksF e ++ rest) = some (e, rest)) ∧
       (∀ (rest : List Tok) (fuel : Nat), 10 * esize e + needT e ≤ fuel →
          noTermOpHead rest → pTerm fuel (toksT e ++ rest) = some (e, rest)) ∧
       (∀ (rest : List Tok) (fuel : Nat), 10 * esize e + 8 ≤ fuel →
          noExprOpHead rest → pExpr fuel (toksE e ++ rest) = some (e, rest))) := by
  induction n with
  | zero =>
    intro e he
    have := esize_pos e
    omega
  | succ n ih =>
    intro e he
    cases e with
    | num m =>
      have h1 : esize (Expr.num m) = 1 := rfl
      have h2 : needT (Expr.num m) = 1 := rfl
      have hT : ∀ (rest : List Tok) (fuel : Nat),
          10 * esize (Expr.num m) + needT (Expr.num m) ≤ fuel → noTermOpHead rest →
          pTerm fuel (toksT (Expr.num m) ++ rest) = some (Expr.num m, rest) := by
        intro rest fuel hfu hrest
        obtain ⟨f, rfl⟩ : ∃ f, fuel = f + 1 := ⟨fuel - 1, by omega⟩
        obtain ⟨f2, rfl⟩ : ∃ f2, f = f2 + 1 := ⟨f - 1, by omega⟩
        rw [show toksT (Expr.num m) ++ rest = Tok.num m :: rest from rfl]
        rw [pTerm_step (f2 + 1) _ rest (Expr.num m) (pFactor_num f2 m rest)]
        exact pTermRest_noop f2 _ rest hrest
      refine ⟨?_, hT, ?_⟩
      · intro rest fuel hfu
        obtain ⟨f, rfl⟩ : ∃ f, fuel = f + 1 := ⟨fuel - 1, by omega⟩
        exact pFactor_num f m rest
      · intro rest fuel hfu hrest
        obtain ⟨f, rfl⟩ : ∃ f, fuel = f + 1 := ⟨fuel - 1, by omega⟩
        rw [show toksE (Expr.num m) = toksT (Expr.num m) from rfl]
        rw [pExpr_step f _ rest (Expr.num m)
          (hT rest f (by omega) (noTermOp_of_noExprOp rest hrest))]
        obtain ⟨f2, rfl⟩ : ∃ f2, f = f2 + 1 := ⟨f - 1, by omega⟩
        exact pExprRest_noop f2 _ rest hrest
    | add a b =>
      have hesize : esize (Expr.add a b) = esize a + esize b + 1 := rfl
      have hneedT : needT (Expr.add a b) = 10 := rfl
      have hpa := esize_pos a
      have hpb := esize_pos b
      have hch1 : (echain (Expr.add a b)).1 = (echain a).1 := rfl
      have hch2 : (echain (Expr.add a b)).2 = (echain a).2 ++ [(true, b)] := rfl
      have hpt1 := esize_pos (echain a).1
      have hsize1 : esize (echain a).1 ≤ esize a := by
        have := echain_size a; omega
      have hsL : 1 + esize b ≤ sizeL (echain (Expr.add a b)).2 := by
        rw [hch2, sizeL_append, sizeL_cons, sizeL_nil]
        simp only [Prod.snd]
        omega
      have hsizeEq : esize (Expr.add a b)
          = esize (echain a).1 + sizeL (echain (Expr.add a b)).2 := by
        have := echain_size (Expr.add a b)
        rwa [hch1] at this
      have ihL : ∀ p ∈ (echain (Expr.add a b)).2, ∀ (rest2 : List Tok) (fuel2 : Nat),
          10 * esize p.2 + 10 ≤ fuel2 → noTermOpHead rest2 →
          pTerm fuel2 (toksT p.2 ++ rest2) = some (p.2, rest2) := by
        intro p hp rest2 fuel2 hf2 hr2
        have hlt := echain_mem (Expr.add a b) p hp
        exact (ih p.2 (by omega)).2.1 rest2 fuel2 (by have := needT_le p.2; omega) hr2
      have ihT1 : ∀ (rest2 : List Tok) (fuel2 : Nat),
          10 * esize (echain a).1 + 10 ≤ fuel2 → noTermOpHead rest2 →
          pTerm fuel2 (toksT (echain a).1 ++ rest2) = some ((echain a).1, rest2) := by
        intro rest2 fuel2 hf2 hr2
        exact (ih (echain a).1 (by omega)).2.1 rest2 fuel2
          (by have := needT_le (echain a).1; omega) hr2
      have hE : ∀ (rest : List Tok) (fuel : Nat), 10 * esize (Expr.add a b) + 8 ≤ fuel →
          noExprOpHead rest →
          pExpr fuel (toksE (Expr.add a b) ++ rest) = some (Expr.add a b, rest) := by
        intro rest fuel hfu hrest
        obtain ⟨f, rfl⟩ : ∃ f, fuel = f + 1 := ⟨fuel - 1, by omega⟩
        rw [echain_toks (Expr.add a b), hch1, List.append_assoc]
        rw [pExpr_step f _ _ (echain a).1
          (ihT1 _ f (by omega) (noTermOpHead_tailToksE _ rest hrest))]
        rw [pExprRest_chain (echain (Expr.add a b)).2 (echain a).1 rest f ihL
          (by omega) hrest]
        have hr := echain_rebuild (Expr.add a b)
        rw [hch1] at hr
        rw [hr]
      have hF : ∀ (rest : List Tok) (fuel : Nat), 10 * esize (Expr.add a b) + 9 ≤ fuel →
          pFactor fuel (toksF (Expr.add a b) ++ rest) = some (Expr.add a b, rest) := by
        intro rest fuel hfu
        obtain ⟨f, rfl⟩ : ∃ f, fuel = f + 1 := ⟨fuel - 1, by omega⟩
        have htoksF : toksF (Expr.add a b) ++ rest
            = Tok.lparen :: (toksE (Expr.add a b) ++ (Tok.rparen :: rest)) := by
          show (Tok.lparen :: (toksE a ++ Tok.plus :: toksT b) ++ [Tok.rparen]) ++ rest = _
          simp [toksE, List.append_assoc]
        rw [htoksF]
        exact pFactor_lparen f _ rest (Expr.add a b)
          (hE (Tok.rparen :: rest) f (by omega) (noExprOpHead_rparen rest))
      have hT : ∀ (rest : List Tok) (fuel : Nat),
          10 * esize (Expr.add a b) + needT (Expr.add a b) ≤ fuel → noTermOpHead rest →
          pTerm fuel (toksT (Expr.add a b) ++ rest) = some (Expr.add a b, rest) := by
        intro rest fuel hfu hrest
        obtain ⟨f, rfl⟩ : ∃ f, fuel = f + 1 := ⟨fuel - 1, by omega⟩
        rw [show toksT (Expr.add a b) = toksF (Expr.add a b) from rfl]
        rw [pTerm_step f _ rest (Expr.add a b) (hF rest f (by omega))]
        obtain ⟨f2, rfl⟩ : ∃ f2, f = f2 + 1 := ⟨f - 1, by omega⟩
        exact pTermRest_noop f2 _ rest hrest
      exact ⟨hF, hT, hE⟩
    | sub a b =>
      have hesize : esize (Expr.sub a b) = esize a + esize b + 1 := rfl
      have hneedT : needT (Expr.sub a b) = 10 := rfl
      have hpa := esize_pos a
      have hpb := esize_pos b
      have hch1 : (echain (Expr.sub a b)).1 = (echain a).1 := rfl
      have hch2 : (echain (Expr.sub a b)).2 = (echain a).2 ++ [(false, b)] := rfl
      have hpt1 := esize_pos (echain a).1
      have hsize1 : esize (echain a).1 ≤ esize a := by
        have := echain_size a; omega
      have hsL : 1 + esize b ≤ sizeL (echain (Expr.sub a b)).2 := by
        rw [hch2, sizeL_append, sizeL_cons, sizeL_nil]
        simp only [Prod.snd]
        omega
      have hsizeEq : esize (Expr.sub a b)
          = esize (echain a).1 + sizeL (echain (Expr.sub a b)).2 := by
        have := echain_size (Expr.sub a b)
        rwa [hch1] at this
      have ihL : ∀ p ∈ (echain (Expr.sub a b)).2, ∀ (rest2 : List Tok) (fuel2 : Nat),
          10 * esize p.2 + 10 ≤ fuel2 → noTermOpHead rest2 →
          pTerm fuel2 (toksT p.2 ++ rest2) = some (p.2, rest2) := by
        intro p hp rest2 fuel2 hf2 hr2
        have hlt := echain_mem (Expr.sub a b) p hp
        exact (ih p.2 (by omega)).2.1 rest2 fuel2 (by have := needT_le p.2; omega) hr2
      have ihT1 : ∀ (rest2 : List Tok) (fuel2 : Nat),
          10 * esize (echain a).1 + 10 ≤ fuel2 → noTermOpHead rest2 →
          pTerm fuel2 (toksT (echain a).1 ++ rest2) = some ((echain a).1, rest2) := by
        intro rest2 fuel2 hf2 hr2
        exact (ih (echain a).1 (by omega)).2.1 rest2 fuel2
          (by have := needT_le (echain a).1; omega) hr2
      have hE : ∀ (rest : List Tok) (fuel : Nat), 10 * esize (Expr.sub a b) + 8 ≤ fuel →
          noExprOpHead rest →
          pExpr fuel (toksE (Expr.sub a b) ++ rest) = some (Expr.sub a b, rest) := by
        intro rest fuel hfu hrest
        obtain ⟨f, rfl⟩ : ∃ f, fuel = f + 1 := ⟨fuel - 1, by omega⟩
        rw [echain_toks (Expr.sub a b), hch1, List.append_assoc]
        rw [pExpr_step f _ _ (echain a).1
          (ihT1 _ f (by omega) (noTermOpHead_tailToksE _ rest hrest))]
        rw [pExprRest_chain (echain (Expr.sub a b)).2 (echain a).1 rest f ihL
          (by omega) hrest]
        have hr := echain_rebuild (Expr.sub a b)
        rw [hch1] at hr
        rw [hr]
      have hF : ∀ (rest : List Tok) (fuel : Nat), 10 * esize (Expr.sub a b) + 9 ≤ fuel →
          pFactor fuel (toksF (Expr.sub a b) ++ rest) = some (Expr.sub a b, rest) := by
        intro rest fuel hfu
        obtain ⟨f, rfl⟩ : ∃ f, fuel = f + 1 := ⟨fuel - 1, by omega⟩
        have htoksF : toksF (Expr.sub a b) ++ rest
            = Tok.lparen :: (toksE (Expr.sub a b) ++ (Tok.rparen :: rest)) := by
          show (Tok.lparen :: (toksE a ++ Tok.minus :: toksT b) ++ [Tok.rparen]) ++ rest = _
          simp [toksE, List.append_assoc]
        rw [htoksF]
        exact pFactor_lparen f _ rest (Expr.sub a b)
          (hE (Tok.rparen :: rest) f (by omega) (noExprOpHead_rparen rest))
      have hT : ∀ (rest : List Tok) (fuel : Nat),
          10 * esize (Expr.sub a b) + needT (Expr.sub a b) ≤ fuel → noTermOpHead rest →
          pTerm fuel (toksT (Expr.sub a b) ++ rest) = some (Expr.sub a b, rest) := by
        intro rest fuel hfu hrest
        obtain ⟨f, rfl⟩ : ∃ f, fuel = f + 1 := ⟨fuel - 1, by omega⟩
        rw [show toksT (Expr.sub a b) = toksF (Expr.sub a b) from rfl]
        rw [pTerm_step f _ rest (Expr.sub a b) (hF rest f (by omega))]
        obtain ⟨f2, rfl⟩ : ∃ f2, f = f2 + 1 := ⟨f - 1, by omega⟩
        exact pTermRest_noop f2 _ rest hrest
      exact ⟨hF, hT, hE⟩
    | mul a b =>
      have hesize : esize (Expr.mul a b) = esize a + esize b + 1 := rfl
      have hneedT : needT (Expr.mul a b) = 1 := rfl
      have hpa := esize_pos a
      have hpb := esize_pos b
      have hch1 : (tchain (Expr.mul a b)).1 = (tchain a).1 := rfl
      have hch2 : (tchain (Expr.mul a b)).2 = (tchain a).2 ++ [(true, b)] := rfl
      have hpt1 := esize_pos (tchain a).1
      have hsize1 : esize (tchain a).1 ≤ esize a := by
        have := tchain_size a; omega
      have hsL : 1 + esize b ≤ sizeL (tchain (Expr.mul a b)).2 := by
        rw [hch2, sizeL_append, sizeL_cons, sizeL_nil]
        simp only [Prod.snd]
        omega
      have hsizeEq : esize (Expr.mul a b)
          = esize (tchain a).1 + sizeL (tchain (Expr.mul a b)).2 := by
        have := tchain_size (Expr.mul a b)
        rwa [hch1] at this
      have ihLf : ∀ p ∈ (tchain (Expr.mul a b)).2, ∀ (rest2 : List Tok) (fuel2 : Nat),
          10 * esize p.2 + 9 ≤ fuel2 →
          pFactor fuel2 (toksF p.2 ++ rest2) = some (p.2, rest2) := by
        intro p hp rest2 fuel2 hf2
        have hlt := tchain_mem (Expr.mul a b) p hp
        exact (ih p.2 (by omega)).1 rest2 fuel2 hf2
      have ihF1 : ∀ (rest2 : List Tok) (fuel2 : Nat),
          10 * esize (tchain a).1 + 9 ≤ fuel2 →
          pFactor fuel2 (toksF (tchain a).1 ++ rest2) = some ((tchain a).1, rest2) := by
        intro rest2 fuel2 hf2
        exact (ih (tchain a).1 (by omega)).1 rest2 fuel2 hf2
      have hT : ∀ (rest : List Tok) (fuel : Nat),
          10 * esize (Expr.mul a b) + needT (Expr.mul a b) ≤ fuel → noTermOpHead rest →
          pTerm fuel (toksT (Expr.mul a b) ++ rest) = some (Expr.mul a b, rest) := by
        intro rest fuel hfu hrest
        obtain ⟨f, rfl⟩ : ∃ f, fuel = f + 1 := ⟨fuel - 1, by omega⟩
        rw [tchain_toks (Expr.mul a b), hch1, List.append_assoc]
        rw [pTerm_step f _ _ (tchain a).1 (ihF1 _ f (by omega))]
        rw [pTermRest_chain (tchain (Expr.mul a b)).2 (tchain a).1 rest f ihLf
          (by omega) hrest]
        have hr := tchain_rebuild (Expr.mul a b)
        rw [hch1] at hr
        rw [hr]
      have hE : ∀ (rest : List Tok) (fuel : Nat), 10 * esize (Expr.mul a b) + 8 ≤ fuel →
          noExprOpHead rest →
          pExpr fuel (toksE (Expr.mul a b) ++ rest) = some (Expr.mul a b, rest) := by
        intro rest fuel hfu hrest
        obtain ⟨f, rfl⟩ : ∃ f, fuel = f + 1 := ⟨fuel - 1, by omega⟩
        rw [show toksE (Expr.mul a b) = toksT (Expr.mul a b) from rfl]
        rw [pExpr_step f _ rest (Expr.mul a b)
          (hT rest f (by omega) (noTermOp_of_noExprOp rest hrest))]
        obtain ⟨f2, rfl⟩ : ∃ f2, f = f2 + 1 := ⟨f - 1, by omega⟩
        exact pExprRest_noop f2 _ rest hrest
      have hF : ∀ (rest : List Tok) (fuel : Nat), 10 * esize (Expr.mul a b) + 9 ≤ fuel →
          pFactor fuel (toksF (Expr.mul a b) ++ rest) = some (Expr.mul a b, rest) := by
        intro rest fuel hfu
        obtain ⟨f, rfl⟩ : ∃ f, fuel = f + 1 := ⟨fuel - 1, by omega⟩
        have htoksF : toksF (Expr.mul a b) ++ rest
            = Tok.lparen :: (toksE (Expr.mul a b) ++ (Tok.rparen :: rest)) := by
          show (Tok.lparen :: (toksT a ++ Tok.star :: toksF b) ++ [Tok.rparen]) ++ rest = _
          simp [toksE, List.append_assoc]
        rw [htoksF]
        exact pFactor_lparen f _ rest (Expr.mul a b)
          (hE (Tok.rparen :: rest) f (by omega) (noExprOpHead_rparen rest))
      exact ⟨hF, hT, hE⟩
    | div a b =>
      have hesize : esize (Expr.div a b) = esize a + esize b + 1 := rfl
      have hneedT : needT (Expr.div a b) = 1 := rfl
      have hpa := esize_pos a
      have hpb := esize_pos b
      have hch1 : (tchain (Expr.div a b)).1 = (tchain a).1 := rfl
      have hch2 : (tchain (Expr.div a b)).2 = (tchain a).2 ++ [(false, b)] := rfl
      have hpt1 := esize_pos (tchain a).1
      have hsize1 : esize (tchain a).1 ≤ esize a := by
        have := tchain_size a; omega
      have hsL : 1 + esize b ≤ sizeL (tchain (Expr.div a b)).2 := by
        rw [hch2, sizeL_append, sizeL_cons, sizeL_nil]
        simp only [Prod.snd]
        omega
      have hsizeEq : esize (Expr.div a b)
          = esize (tchain a).1 + sizeL (tchain (Expr.div a b)).2 := by
        have := tchain_size (Expr.div a b)
        rwa [hch1] at this
      have ihLf : ∀ p ∈ (tchain (Expr.div a b)).2, ∀ (rest2 : List Tok) (fuel2 : Nat),
          10 * esize p.2 + 9 ≤ fuel2 →
          pFactor fuel2 (toksF p.2 ++ rest2) = some (p.2, rest2) := by
        intro p hp rest2 fuel2 hf2
        have hlt := tchain_mem (Expr.div a b) p hp
        exact (ih p.2 (by omega)).1 rest2 fuel2 hf2
      have ihF1 : ∀ (rest2 : List Tok) (fuel2 : Nat),
          10 * esize (tchain a).1 + 9 ≤ fuel2 →
          pFactor fuel2 (toksF (tchain a).1 ++ rest2) = some ((tchain a).1, rest2) := by
        intro rest2 fuel2 hf2
        exact (ih (tchain a).1 (by omega)).1 rest2 fuel2 hf2
      have hT : ∀ (rest : List Tok) (fuel : Nat),
          10 * esize (Expr.div a b) + needT (Expr.div a b) ≤ fuel → noTermOpHead rest →
          pTerm fuel (toksT (Expr.div a b) ++ rest) = some (Expr.div a b, rest) := by
        intro rest fuel hfu hrest
        obtain ⟨f, rfl⟩ : ∃ f, fuel = f + 1 := ⟨fuel - 1, by omega⟩
        rw [tchain_toks (Expr.div a b), hch1, List.append_assoc]
        rw [pTerm_step f _ _ (tchain a).1 (ihF1 _ f (by omega))]
        rw [pTermRest_chain (tchain (Expr.div a b)).2 (tchain a).1 rest f ihLf
          (by omega) hrest]
        have hr := tchain_rebuild (Expr.div a b)
        rw [hch1] at hr
        rw [hr]
      have hE : ∀ (rest : List Tok) (fuel : Nat), 10 * esize (Expr.div a b) + 8 ≤ fuel →
          noExprOpHead rest →
          pExpr fuel (toksE (Expr.div a b) ++ rest) = some (Expr.div a b, rest) := by
        intro rest fuel hfu hrest
        obtain ⟨f, rfl⟩ : ∃ f, fuel = f + 1 := ⟨fuel - 1, by omega⟩
        rw [show toksE (Expr.div a b) = toksT (Expr.div a b) from rfl]
        rw [pExpr_step f _ rest (Expr.div a b)
          (hT rest f (by omega) (noTermOp_of_noExprOp rest hrest))]
        obtain ⟨f2, rfl⟩ : ∃ f2, f = f2 + 1 := ⟨f - 1, by omega⟩
        exact pExprRest_noop f2 _ rest hrest
      have hF : ∀ (rest : List Tok) (fuel : Nat), 10 * esize (Expr.div a b) + 9 ≤ fuel →
          pFactor fuel (toksF (Expr.div a b) ++ rest) = some (Expr.div a b, rest) := by
        intro rest fuel hfu
        obtain ⟨f, rfl⟩ : ∃ f, fuel = f + 1 := ⟨fuel - 1, by omega⟩
        have htoksF : toksF (Expr.div a b) ++ rest
            = Tok.lparen :: (toksE (Expr.div a b) ++ (Tok.rparen :: rest)) := by
          show (Tok.lparen :: (toksT a ++ Tok.slash :: toksF b) ++ [Tok.rparen]) ++ rest = _
          simp [toksE, List.append_assoc]
        rw [htoksF]
        exact pFactor_lparen f _ rest (Expr.div a b)
          (hE (Tok.rparen :: rest) f (by omega) (noExprOpHead_rparen rest))
      exact ⟨hF, hT, hE⟩

theorem toks_len (e : Expr) :
    esize e ≤ (toksE e).length ∧ esize e ≤ (toksT e).length
      ∧ esize e ≤ (toksF e).length := by
  induction e <;> simp [toksE, toksT, toksF, esize] <;> omega

/-- The parser recovers every printed expression exactly. -/
theorem parseExpr_toksE (e : Expr) : parseExpr (toksE e) = some e := by
  unfold parseExpr
  have hlen := (toks_len e).1
  have h := (parse_trip_aux (esize e) e le_rfl).2.2 [] (10 * (toksE e).length + 10)
    (by omega) trivial
  rw [List.append_nil] at h
  rw [h]

theorem natDigits_ne_nil (n : Nat) : natDigits n ≠ [] := by
  unfold natDigits
  split <;> simp

theorem headNotDigit_cons (c : Char) (l : List Char) (h : c.isDigit = false) :
    headNotDigit (c :: l) := h

theorem tokAux_digits (ds : List Char) :
    ∀ (a : Nat) (cs : List Char), (∀ c ∈ ds, c.isDigit = true) →
      tokAux (some a) (ds ++ cs)
        = tokAux (some (ds.foldl (fun x c => 10 * x + digitVal c) a)) cs := by
  induction ds with
  | nil => intro a cs _; rfl
  | cons d ds ih =>
    intro a cs hall
    have hd : d.isDigit = true := hall d (List.mem_cons_self _ _)
    show tokAux (some a) (d :: (ds ++ cs)) = _
    rw [show tokAux (some a) (d :: (ds ++ cs))
        = tokAux (some (10 * a + digitVal d)) (ds ++ cs) from by
      simp [tokAux, hd]]
    rw [ih _ cs (fun c hc => hall c (List.mem_cons_of_mem d hc))]
    rfl

theorem tokAux_pending (m : Nat) (cs : List Char) (h : headNotDigit cs) :
    tokAux (some m) cs = (tokAux none cs).map (fun ts => Tok.num m :: ts) := by
  cases cs with
  | nil => rfl
  | cons c cs =>
    have hcd : c.isDigit = false := h
    by_cases hws : jsWhitespace c = true
    · simp only [tokAux, hcd, hws, Bool.false_eq_true, if_false, if_true]
      cases htok : tokAux none cs with
      | some ts => simp [flushNum]
      | none => simp
    · rw [Bool.not_eq_true] at hws
      simp only [tokAux, hcd, hws, Bool.false_eq_true, if_false]
      cases hop : opTok c with
      | some t =>
        cases htok : tokAux none cs with
        | some ts => simp [flushNum]
        | none => simp
      | none => simp

theorem tokAux_numeral (ds cs : List Char) (hne : ds ≠ [])
    (hall : ∀ c ∈ ds, c.isDigit = true) (h : headNotDigit cs) :
    tokAux none (ds ++ cs)
      = (tokAux none cs).map (fun ts => Tok.num (digitsVal ds) :: ts) := by
  cases ds with
  | nil => exact absurd rfl hne
  | cons d ds =>
    have hd : d.isDigit = true := hall d (List.mem_cons_self _ _)
    show tokAux none (d :: (ds ++ cs)) = _
    rw [show tokAux none (d :: (ds ++ cs))
        = tokAux (some (10 * 0 + digitVal d)) (ds ++ cs) from by
      simp [tokAux, hd]]
    rw [tokAux_digits ds _ cs (fun c hc => hall c (List.mem_cons_of_mem d hc))]
    rw [tokAux_pending _ cs h]
    rfl

theorem opTok_facts (c : Char) (t : Tok) (h : opTok c = some t) :
    c.isDigit = false ∧ jsWhitespace c = false := by
  unfold opTok at h
  split_ifs at h with h1 h2 h3 h4 h5 h6
  · subst h1; exact ⟨by decide, by decide⟩
  · subst h2; exact ⟨by decide, by decide⟩
  · subst h3; exact ⟨by decide, by decide⟩
  · subst h4; exact ⟨by decide, by decide⟩
  · subst h5; exact ⟨by decide, by decide⟩
  · subst h6; exact ⟨by decide, by decide⟩

theorem tokAux_op (c : Char) (t : Tok) (cs : List Char) (h : opTok c = some t) :
    tokAux none (c :: cs) = (tokAux none cs).map (fun ts => t :: ts) := by
  obtain ⟨hcd, hws⟩ := opTok_facts c t h
  simp only [tokAux, hcd, hws, Bool.false_eq_true, if_false, h]
  cases htok : tokAux none cs with
  | some ts => simp [flushNum]
  | none => simp

/-- Tokenizing a printed expression yields its token rendering, at all three
printer levels (strong induction on size). -/
theorem tok_trip_aux (n : Nat) :
    ∀ e, esize e ≤ n →
      ((∀ cs, headNotDigit cs → tokAux none ((renderE e).data ++ cs)
          = (tokAux none cs).map (fun ts => toksE e ++ ts)) ∧
       (∀ cs, headNotDigit cs → tokAux none ((renderT e).data ++ cs)
          = (tokAux none cs).map (fun ts => toksT e ++ ts)) ∧
       (∀ cs, headNotDigit cs → tokAux none ((renderF e).data ++ cs)
          = (tokAux none cs).map (fun ts => toksF e ++ ts))) := by
  induction n with
  | zero =>
    intro e he
    have := esize_pos e
    omega
  | succ n ih =>
    intro e he
    cases e with
    | num m =>
      have hnum : ∀ cs, headNotDigit cs →
          tokAux none ((renderE (Expr.num m)).data ++ cs)
            = (tokAux none cs).map (fun ts => toksE (Expr.num m) ++ ts) := by
        intro cs hcs
        have h := tokAux_numeral (natDigits m) cs (natDigits_ne_nil m)
          (natDigits_all_digit m) hcs
        rw [digitsVal_natDigits] at h
        exact h
      exact ⟨hnum, hnum, hnum⟩
    | add a b =>
      have hpa := esize_pos a
      have hpb := esize_pos b
      have hesize : esize (Expr.add a b) = esize a + esize b + 1 := rfl
      have ihEa := (ih a (by omega)).1
      have ihTb := (ih b (by omega)).2.1
      have hE : ∀ cs, headNotDigit cs →
          tokAux none ((renderE (Expr.add a b)).data ++ cs)
            = (tokAux none cs).map (fun ts => toksE (Expr.add a b) ++ ts) := by
        intro cs hcs
        have hsplit : (renderE (Expr.add a b)).data ++ cs
            = (renderE a).data ++ ('+' :: ((renderT b).data ++ cs)) := by
          rw [show renderE (Expr.add a b) = renderE a ++ "+" ++ renderT b from rfl]
          simp [String.data_append, List.append_assoc]
        rw [hsplit]
        rw [ihEa _ (headNotDigit_cons _ _ (by decide))]
        rw [tokAux_op '+' Tok.plus _ (by decide)]
        rw [ihTb cs hcs]
        cases htok : tokAux none cs with
        | some ts => simp [toksE, List.append_assoc]
        | none => simp
      have hT : ∀ cs, headNotDigit cs →
          tokAux none ((renderT (Expr.add a b)).data ++ cs)
            = (tokAux none cs).map (fun ts => toksT (Expr.add a b) ++ ts) := by
        intro cs hcs
        have hsplit : (renderT (Expr.add a b)).data ++ cs
            = '(' :: ((renderE (Expr.add a b)).data ++ (')' :: cs)) := by
          rw [show renderT (Expr.add a b)
              = "(" ++ (renderE a ++ "+" ++ renderT b) ++ ")" from rfl,
            show renderE (Expr.add a b) = renderE a ++ "+" ++ renderT b from rfl]
          simp [String.data_append, List.append_assoc]
        rw [hsplit]
        rw [tokAux_op '(' Tok.lparen _ (by decide)]
        rw [hE (')' :: cs) (headNotDigit_cons _ _ (by decide))]
        rw [tokAux_op ')' Tok.rparen _ (by decide)]
        cases htok : tokAux none cs with
        | some ts => simp [toksT, toksE, List.append_assoc]
        | none => simp
      exact ⟨hE, hT, hT⟩
    | sub a b =>
      have hpa := esize_pos a
      have hpb := esize_pos b
      have hesize : esize (Expr.sub a b) = esize a + esize b + 1 := rfl
      have ihEa := (ih a (by omega)).1
      have ihTb := (ih b (by omega)).2.1
      have hE : ∀ cs, headNotDigit cs →
          tokAux none ((renderE (Expr.sub a b)).data ++ cs)
            = (tokAux none cs).map (fun ts => toksE (Expr.sub a b) ++ ts) := by
        intro cs hcs
        have hsplit : (renderE (Expr.sub a b)).data ++ cs
            = (renderE a).data ++ ('-' :: ((renderT b).data ++ cs)) := by
          rw [show renderE (Expr.sub a b) = renderE a ++ "-" ++ renderT b from rfl]
          simp [String.data_append, List.append_assoc]
        rw [hsplit]
        rw [ihEa _ (headNotDigit_cons _ _ (by decide))]
        rw [tokAux_op '-' Tok.minus _ (by decide)]
        rw [ihTb cs hcs]
        cases htok : tokAux none cs with
        | some ts => simp [toksE, List.append_assoc]
        | none => simp
      have hT : ∀ cs, headNotDigit cs →
          tokAux none ((renderT (Expr.sub a b)).data ++ cs)
            = (tokAux none cs).map (fun ts => toksT (Expr.sub a b) ++ ts) := by
        intro cs hcs
        have hsplit : (renderT (Expr.sub a b)).data ++ cs
            = '(' :: ((renderE (Expr.sub a b)).data ++ (')' :: cs)) := by
          rw [show renderT (Expr.sub a b)
              = "(" ++ (renderE a ++ "-" ++ renderT b) ++ ")" from rfl,
            show renderE (Expr.sub a b) = renderE a ++ "-" ++ renderT b from rfl]
          simp [String.data_append, List.append_assoc]
        rw [hsplit]
        rw [tokAux_op '(' Tok.lparen _ (by decide)]
        rw [hE (')' :: cs) (headNotDigit_cons _ _ (by decide))]
        rw [tokAux_op ')' Tok.rparen _ (by decide)]
        cases htok : tokAux none cs with
        | some ts => simp [toksT, toksE, List.append_assoc]
        | none => simp
      exact ⟨hE, hT, hT⟩
    | mul a b =>
      have hpa := esize_pos a
      have hpb := esize_pos b
      have hesize : esize (Expr.mul a b) = esize a + esize b + 1 := rfl
      have ihTa := (ih a (by omega)).2.1
      have ihFb := (ih b (by omega)).2.2
      have hT : ∀ cs, headNotDigit cs →
          tokAux none ((renderT (Expr.mul a b)).data ++ cs)
            = (tokAux none cs).map (fun ts => toksT (Expr.mul a b) ++ ts) := by
        intro cs hcs
        have hsplit : (renderT (Expr.mul a b)).data ++ cs
            = (renderT a).data ++ ('*' :: ((renderF b).data ++ cs)) := by
          rw [show renderT (Expr.mul a b) = renderT a ++ "*" ++ renderF b from rfl]
          simp [String.data_append, List.append_assoc]
        rw [hsplit]
        rw [ihTa _ (headNotDigit_cons _ _ (by decide))]
        rw [tokAux_op '*' Tok.star _ (by decide)]
        rw [ihFb cs hcs]
        cases htok : tokAux none cs with
        | some ts => simp [toksT, List.append_assoc]
        | none => simp
      have hF : ∀ cs, headNotDigit cs →
          tokAux none ((renderF (Expr.mul a b)).data ++ cs)
            = (tokAux none cs).map (fun ts => toksF (Expr.mul a b) ++ ts) := by
        intro cs hcs
        have hsplit : (renderF (Expr.mul a b)).data ++ cs
            = '(' :: ((renderE (Expr.mul a b)).data ++ (')' :: cs)) := by
          rw [show renderF (Expr.mul a b)
              = "(" ++ (renderT a ++ "*" ++ renderF b) ++ ")" from rfl,
            show renderE (Expr.mul a b) = renderT a ++ "*" ++ renderF b from rfl]
          simp [String.data_append, List.append_assoc]
        rw [hsplit]
        rw [tokAux_op '(' Tok.lparen _ (by decide)]
        rw [show renderE (Expr.mul a b) = renderT (Expr.mul a b) from rfl]
        rw [hT (')' :: cs) (headNotDigit_cons _ _ (by decide))]
        rw [tokAux_op ')' Tok.rparen _ (by decide)]
        cases htok : tokAux none cs with
        | some ts => simp [toksF, toksT, List.append_assoc]
        | none => simp
      exact ⟨hT, hT, hF⟩
    | div a b =>
      have hpa := esize_pos a
      have hpb := esize_pos b
      have hesize : esize (Expr.div a b) = esize a + esize b + 1 := rfl
      have ihTa := (ih a (by omega)).2.1
      have ihFb := (ih b (by omega)).2.2
      have hT : ∀ cs, headNotDigit cs →
          tokAux none ((renderT (Expr.div a b)).data ++ cs)
            = (tokAux none cs).map (fun ts => toksT (Expr.div a b) ++ ts) := by
        intro cs hcs
        have hsplit : (renderT (Expr.div a b)).data ++ cs
            = (renderT a).data ++ ('/' :: ((renderF b).data ++ cs)) := by
          rw [show renderT (Expr.div a b) = renderT a ++ "/" ++ renderF b from rfl]
          simp [String.data_append, List.append_assoc]
        rw [hsplit]
        rw [ihTa _ (headNotDigit_cons _ _ (by decide))]
        rw [tokAux_op '/' Tok.slash _ (by decide)]
        rw [ihFb cs hcs]
        cases htok : tokAux none cs with
        | some ts => simp [toksT, List.append_assoc]
        | none => simp
      have hF : ∀ cs, headNotDigit cs →
          tokAux none ((renderF (Expr.div a b)).data ++ cs)
            = (tokAux none cs).map (fun ts => toksF (Expr.div a b) ++ ts) := by
        intro cs hcs
        have hsplit : (renderF (Expr.div a b)).data ++ cs
            = '(' :: ((renderE (Expr.div a b)).data ++ (')' :: cs)) := by
          rw [show renderF (Expr.div a b)
              = "(" ++ (renderT a ++ "/" ++ renderF b) ++ ")" from rfl,
            show renderE (Expr.div a b) = renderT a ++ "/" ++ renderF b from rfl]
          simp [String.data_append, List.append_assoc]
        rw [hsplit]
        rw [tokAux_op '(' Tok.lparen _ (by decide)]
        rw [show renderE (Expr.div a b) = renderT (Expr.div a b) from rfl]
        rw [hT (')' :: cs) (headNotDigit_cons _ _ (by decide))]
        rw [tokAux_op ')' Tok.rparen _ (by decide)]
        cases htok : tokAux none cs with
        | some ts => simp [toksF, toksT, List.append_assoc]
        | none => simp
      exact ⟨hT, hT, hF⟩

theorem tokenize_renderE (e : Expr) : tokenize (renderE e) = some (toksE e) := by
  unfold tokenize
  have h := (tok_trip_aux (esize e) e le_rfl).1 [] trivial
  rw [List.append_nil] at h
  rw [h]
  simp [tokAux, flushNum]

/-- The spec-modelled evaluator computes the mathematical value of every
printed expression tree. -/
theorem calcEval_renderE (e : Expr) : calcEval (renderE e) = evalE e := by
  unfold calcEval
  rw [tokenize_renderE e]
  show (match parseExpr (toksE e) with
    | some e2 => evalE e2
    | none => none) = evalE e
  rw [parseExpr_toksE e]

theorem allowedChar_of_isDigit (c : Char) (h : c.isDigit = true) :
    allowedChar c = true := by
  simp [allowedChar, h]

/-- Printed expressions use only characters of the allowed sanitizer
class. -/
theorem render_chars (e : Expr) :
    (∀ c ∈ (renderE e).data, allowedChar c = true) ∧
    (∀ c ∈ (renderT e).data, allowedChar c = true) ∧
    (∀ c ∈ (renderF e).data, allowedChar c = true) := by
  induction e with
  | num m =>
    have h : ∀ c ∈ (natToString m).data, allowedChar c = true := by
      intro c hc
      exact allowedChar_of_isDigit c (natDigits_all_digit m c hc)
    exact ⟨h, h, h⟩
  | add a b iha ihb =>
    have hE : ∀ c ∈ (renderE (Expr.add a b)).data, allowedChar c = true := by
      intro c hc
      rw [show renderE (Expr.add a b) = renderE a ++ "+" ++ renderT b from rfl] at hc
      simp only [String.data_append, List.mem_append] at hc
      rcases hc with (hc | hc) | hc
      · exact iha.1 c hc
      · rw [List.mem_singleton] at hc
        subst hc; decide
      · exact ihb.2.1 c hc
    have hT : ∀ c ∈ (renderT (Expr.add a b)).data, allowedChar c = true := by
      intro c hc
      rw [show renderT (Expr.add a b)
          = "(" ++ (renderE a ++ "+" ++ renderT b) ++ ")" from rfl,
        show (renderE a ++ "+" ++ renderT b) = renderE (Expr.add a b) from rfl] at hc
      simp only [String.data_append, List.mem_append] at hc
      rcases hc with (hc | hc) | hc
      · rw [List.mem_singleton] at hc
        subst hc; decide
      · exact hE c hc
      · rw [List.mem_singleton] at hc
        subst hc; decide
    exact ⟨hE, hT, hT⟩
  | sub a b iha ihb =>
    have hE : ∀ c ∈ (renderE (Expr.sub a b)).data, allowedChar c = true := by
      intro c hc
      rw [show renderE (Expr.sub a b) = renderE a ++ "-" ++ renderT b from rfl] at hc
      simp only [String.data_append, List.mem_append] at hc
      rcases hc with (hc | hc) | hc
      · exact iha.1 c hc
      · rw [List.mem_singleton] at hc
        subst hc; decide
      · exact ihb.2.1 c hc
    have hT : ∀ c ∈ (renderT (Expr.sub a b)).data, allowedChar c = true := by
      intro c hc
      rw [show renderT (Expr.sub a b)
          = "(" ++ (renderE a ++ "-" ++ renderT b) ++ ")" from rfl,
        show (renderE a ++ "-" ++ renderT b) = renderE (Expr.sub a b) from rfl] at hc
      simp only [String.data_append, List.mem_append] at hc
      rcases hc with (hc | hc) | hc
      · rw [List.mem_singleton] at hc
        subst hc; decide
      · exact hE c hc
      · rw [List.mem_singleton] at hc
        subst hc; decide
    exact ⟨hE, hT, hT⟩
  | mul a b iha ihb =>
    have hT : ∀ c ∈ (renderT (Expr.mul a b)).data, allowedChar c = true := by
      intro c hc
      rw [show renderT (Expr.mul a b) = renderT a ++ "*" ++ renderF b from rfl] at hc
      simp only [String.data_append, List.mem_append] at hc
      rcases hc with (hc | hc) | hc
      · exact iha.2.1 c hc
      · rw [List.mem_singleton] at hc
        subst hc; decide
      · exact ihb.2.2 c hc
    have hF : ∀ c ∈ (renderF (Expr.mul a b)).data, allowedChar c = true := by
      intro c hc
      rw [show renderF (Expr.mul a b)
          = "(" ++ (renderT a ++ "*" ++ renderF b) ++ ")" from rfl,
        show (renderT a ++ "*" ++ renderF b) = renderT (Expr.mul a b) from rfl] at hc
      simp only [String.data_append, List.mem_append] at hc
      rcases hc with (hc | hc) | hc
      · rw [List.mem_singleton] at hc
        subst hc; decide
      · exact hT c hc
      · rw [List.mem_singleton] at hc
        subst hc; decide
    exact ⟨hT, hT, hF⟩
  | div a b iha ihb =>
    have hT : ∀ c ∈ (renderT (Expr.div a b)).data, allowedChar c = true := by
      intro c hc
      rw [show renderT (Expr.div a b) = renderT a ++ "/" ++ renderF b from rfl] at hc
      simp only [String.data_append, List.mem_append] at hc
      rcases hc with (hc | hc) | hc
      · exact iha.2.1 c hc
      · rw [List.mem_singleton] at hc
        subst hc; decide
      · exact ihb.2.2 c hc
    have hF : ∀ c ∈ (renderF (Expr.div a b)).data, allowedChar c = true := by
      intro c hc
      rw [show renderF (Expr.div a b)
          = "(" ++ (renderT a ++ "/" ++ renderF b) ++ ")" from rfl,
        show (renderT a ++ "/" ++ renderF b) = renderT (Expr.div a b) from rfl] at hc
      simp only [String.data_append, List.mem_append] at hc
      rcases hc with (hc | hc) | hc
      · rw [List.mem_singleton] at hc
        subst hc; decide
      · exact hT c hc
      · rw [List.mem_singleton] at hc
        subst hc; decide
    exact ⟨hT, hT, hF⟩

theorem renderE_ne_empty (e : Expr) : renderE e ≠ "" := by
  intro hcontra
  have hdata : (renderE e).data = [] := by rw [hcontra]
  cases e with
  | num m => exact natDigits_ne_nil m hdata
  | add a b =>
    rw [show renderE (Expr.add a b) = renderE a ++ "+" ++ renderT b from rfl] at hdata
    simp [String.data_append] at hdata
  | sub a b =>
    rw [show renderE (Expr.sub a b) = renderE a ++ "-" ++ renderT b from rfl] at hdata
    simp [String.data_append] at hdata
  | mul a b =>
    rw [show renderE (Expr.mul a b) = renderT a ++ "*" ++ renderF b from rfl] at hdata
    simp [String.data_append] at hdata
  | div a b =>
    rw [show renderE (Expr.div a b) = renderT a ++ "/" ++ renderF b from rfl] at hdata
    simp [String.data_append] at hdata

/-- The `calculate` tool, running the spec-modelled evaluator, returns the
mathematical value of any printed expression tree that has one. -/
theorem calculate_renderE (e : Expr) (q : ℚ) (h : evalE e = some q) :
    calculate calcEval (renderE e) = .ok q := by
  rw [calculate_clean calcEval (renderE e) (renderE_ne_empty e) (render_chars e).1]
  rw [calcEval_renderE e, h]

theorem authenticate_none (apiKey : String) :
    authenticate none apiKey = .unauthorized401 := rfl

theorem authenticate_not_bearer (h apiKey : String)
    (hb : jsStartsWith h "Bearer " = false) :
    authenticate (some h) apiKey = .unauthorized401 := by
  unfold authenticate
  rw [if_pos]
  simp [hb]

theorem authenticate_forbidden (h apiKey : String)
    (hb : jsStartsWith h "Bearer " = true) (hk : jsSubstring h 7 ≠ apiKey) :
    authenticate (some h) apiKey = .forbidden403 := by
  have hne : h ≠ "" := by
    intro hcontra
    rw [hcontra] at hb
    exact absurd hb (by decide)
  unfold authenticate
  rw [if_neg, if_pos]
  · simpa using hk
  · intro hcontra
    rcases Bool.or_eq_true_iff.mp hcontra with hcontra | hcontra
    · simp [jsTruthyStr, hne] at hcontra
    · simp only [Option.getD] at hcontra
      rw [hb] at hcontra
      exact absurd hcontra (by decide)

theorem jsMapGet_of_mem_nodup (l : List (String × α))
    (hnd : (l.map Prod.fst).Nodup) (k : String) (t : α) (hmem : (k, t) ∈ l) :
    jsMapGet l k = some t := by
  induction l with
  | nil => simp at hmem
  | cons p l ih =>
    rw [jsMapGet_cons]
    rw [List.map_cons, List.nodup_cons] at hnd
    rcases List.mem_cons.mp hmem with h | h
    · rw [← h]
      simp
    · by_cases hp : p.1 = k
      · exfalso
        apply hnd.1
        rw [hp]
        exact List.mem_map.mpr ⟨(k, t), h, rfl⟩
      · rw [if_neg hp]
        exact ih hnd.2 h

/-! ## Claim theorems -/

/-- C1 (counterexample): the inbound message router does NOT look a
correlated session id up.  In the reachable state with sessions
`"A" ↦ 1` and `"B" ↦ 2` and most-recent transport `2`, a message
correlated to session `"A"` (whose transport `1` is registered and
lookup-able) is delivered to transport `2`, not to `1`. -/
theorem C1_counterexample :
    P0Reachable ⟨[("A", 1), ("B", 2)], some 2, [("A", 1), ("B", 2)]⟩ ∧
    jsMapGet ([("A", 1), ("B", 2)] : List (String × TransportId)) "A" = some 1 ∧
    routeMessage ⟨[("A", 1), ("B", 2)], some 2, [("A", 1), ("B", 2)]⟩ (some "A")
      = RouteResult.delivered 2 ∧
    RouteResult.delivered 2 ≠ RouteResult.delivered 1 := by
  refine ⟨?_, by decide, rfl, by decide⟩
  have h1 : P0Step P0State.init ⟨[("A", 1)], some 1, [("A", 1)]⟩ :=
    P0Step.connect P0State.init "A" 1 (by simp [P0State.init])
  have h2 : P0Step ⟨[("A", 1)], some 1, [("A", 1)]⟩
      ⟨[("A", 1), ("B", 2)], some 2, [("A", 1), ("B", 2)]⟩ :=
    P0Step.connect ⟨[("A", 1)], some 1, [("A", 1)]⟩ "B" 2 (by decide)
  exact P0Reachable.step _ _ (P0Reachable.step _ _ P0Reachable.init h1) h2

/-- C1 (amended): the `part_000` message endpoint ignores any correlated
session identifier carried by the request: the routing outcome is the same
for every (or no) correlated id, every message is delivered to the
transport currently marked most recent when one is set, and is answered
accepted-but-undelivered (202) otherwise. -/
theorem C1_theorem :
    ∀ (st : P0State) (msgId1 msgId2 : Option String),
      routeMessage st msgId1 = routeMessage st msgId2 ∧
      (∀ t, st.currentTransport = some t →
        routeMessage st msgId1 = RouteResult.delivered t) ∧
      (st.currentTransport = none →
        routeMessage st msgId1 = RouteResult.accepted202) := by
  intro st m1 m2
  refine ⟨rfl, ?_, ?_⟩
  · intro t ht
    unfold routeMessage
    rw [ht]
  · intro ht
    unfold routeMessage
    rw [ht]

/-- C1 witness: in a state whose most-recent transport is `1`, a message is
delivered to transport `1`. -/
theorem C1_witness :
    routeMessage ⟨[("A", 1)], some 1, [("A", 1)]⟩ (some "A")
      = RouteResult.delivered 1 :=
  (C1_theorem ⟨[("A", 1)], some 1, [("A", 1)]⟩ (some "A") none).2.1 1 rfl

/-- C2: a posted message finding no current transport is answered `202`
(accepted but undelivered), in particular in every reachable state with
zero registered sessions; the `mcp-server` variant likewise answers a
non-error `200` unconditionally.  Neither is an error response. -/
theorem C2_theorem :
    ∀ (st : P0State) (msgId : Option String),
      (st.currentTransport = none →
        routeMessage st msgId = RouteResult.accepted202) ∧
      (P0Reachable st → st.transports = [] →
        routeMessage st msgId = RouteResult.accepted202) ∧
      mcpMessageStatus = 200 := by
  intro st msgId
  refine ⟨?_, ?_, rfl⟩
  · intro h
    unfold routeMessage
    rw [h]
  · intro hreach hempty
    have hinv := p0Reachable_inv st hreach
    cases hcur : st.currentTransport with
    | none =>
      unfold routeMessage
      rw [hcur]
    | some t =>
      obtain ⟨id, hmem⟩ := hinv.2.2 t hcur
      have hopens : st.opens = [] := by rw [← hinv.1, hempty]
      rw [hopens] at hmem
      exact absurd hmem (List.not_mem_nil _)

/-- C2 witness: posting against the initial (empty) state yields `202`. -/
theorem C2_witness : routeMessage P0State.init none = RouteResult.accepted202 :=
  (C2_theorem P0State.init none).2.1 P0Reachable.init rfl

/-- C3: the session-registry contract.  `register` (`Map.set`) inserts or
overwrites and leaves other keys alone; `unregister` (`Map.delete`) removes
the entry, leaves other keys alone, and is a no-op on an absent id;
`lookup` (`Map.get`) reports the transport or absence.  Registering two
distinct ids and unregistering one leaves exactly one lookup-able entry. -/
theorem C3_theorem :
    ∀ (α : Type) (m : List (String × α)) (k k2 : String) (v v1 v2 : α),
      jsMapGet (jsMapSet m k v) k = some v ∧
      (k ≠ k2 → jsMapGet (jsMapSet m k v) k2 = jsMapGet m k2) ∧
      jsMapGet (jsMapDelete m k) k = none ∧
      (k ≠ k2 → jsMapGet (jsMapDelete m k) k2 = jsMapGet m k2) ∧
      (jsMapGet m k = none → jsMapDelete m k = m) ∧
      jsMapDelete (jsMapDelete m k) k = jsMapDelete m k ∧
      (k ≠ k2 →
        jsMapSize (jsMapDelete (jsMapSet (jsMapSet [] k v1) k2 v2) k) = 1 ∧
        jsMapGet (jsMapDelete (jsMapSet (jsMapSet [] k v1) k2 v2) k) k2 = some v2 ∧
        jsMapGet (jsMapDelete (jsMapSet (jsMapSet [] k v1) k2 v2) k) k = none) := by
  intro α m k k2 v v1 v2
  refine ⟨jsMapGet_set_self m k v, fun h => jsMapGet_set_ne m k k2 v h,
    jsMapGet_delete_self m k, fun h => jsMapGet_delete_ne m k k2 h,
    jsMapDelete_absent m k, jsMapDelete_delete m k, ?_⟩
  intro hne
  have h1 : jsMapSet ([] : List (String × α)) k v1 = [(k, v1)] :=
    jsMapSet_fresh [] k v1 (by simp)
  have h2 : jsMapSet [(k, v1)] k2 v2 = [(k, v1), (k2, v2)] :=
    jsMapSet_fresh [(k, v1)] k2 v2 (by
      simp only [List.map_cons, List.map_nil, List.mem_singleton]
      exact fun hcontra => hne hcontra.symm)
  have h3 : jsMapDelete [(k, v1), (k2, v2)] k = [(k2, v2)] := by
    rw [jsMapDelete_cons, if_pos rfl, jsMapDelete_cons, if_neg, jsMapDelete]
    · rfl
    · exact fun hcontra => hne hcontra.symm
  rw [h1, h2, h3]
  refine ⟨rfl, ?_, ?_⟩
  · rw [jsMapGet_cons, if_pos rfl]
  · rw [jsMapGet_cons, if_neg, jsMapGet_nil]
    exact fun hcontra => hne hcontra.symm

/-- C3 witness: the contract at concrete inputs. -/
theorem C3_witness :
    jsMapSize (jsMapDelete (jsMapSet (jsMapSet ([] : List (String × Nat)) "a" 1)
      "b" 2) "a") = 1 :=
  ((C3_theorem Nat [] "a" "b" 0 1 2).2.2.2.2.2.2 (by decide)).1

/-- C4 (counterexample): generated session ids are NOT unique across the
process lifetime.  In the `mcp-server` variant the id is
`Date.now().toString()`, so two distinct creation events within the same
millisecond receive the same id. -/
theorem C4_counterexample :
    ¬ (∀ e1 e2 : CreationEvent, e1 ≠ e2 →
        genSessionIdMcp e1.now ≠ genSessionIdMcp e2.now) := by
  intro h
  exact h ⟨0, 1700000000000, ""⟩ ⟨1, 1700000000000, ""⟩ (by decide) rfl

/-- C4 (amended): every reachable registry state has at most one entry per
sessionId, and generated ids are unique whenever the generator inputs
differ: distinct timestamps give distinct `mcp-server` ids, and distinct
(timestamp, random-suffix) pairs give distinct `part_000` ids; only
creations sharing the same clock reading (and suffix) may collide. -/
theorem C4_theorem :
    (∀ (α : Type) (m : List (String × α)), RegReachable m →
      (m.map Prod.fst).Nodup) ∧
    (∀ t1 t2 : Nat, t1 ≠ t2 → genSessionIdMcp t1 ≠ genSessionIdMcp t2) ∧
    (∀ (t1 t2 : Nat) (r1 r2 : String),
      genSessionIdP0 t1 r1 = genSessionIdP0 t2 r2 → t1 = t2 ∧ r1 = r2) := by
  refine ⟨?_, ?_, genSessionIdP0_injective⟩
  · intro α m h
    exact regReachable_keys_nodup m h
  · intro t1 t2 hne heq
    exact hne (natToString_injective t1 t2 heq)

/-- C4 witness: distinct timestamps yield distinct ids. -/
theorem C4_witness : genSessionIdMcp 1 ≠ genSessionIdMcp 2 :=
  C4_theorem.2.1 1 2 (by decide)

/-- C5 (counterexample): "rejected (never evaluated) iff the input contains
a disallowed character" fails at the empty string: `calculate("")` is
rejected before evaluation (with "Expression is required", for every
evaluator), yet `""` contains no disallowed character. -/
theorem C5_counterexample :
    ¬ ((∃ msg, ∀ evalFn : String → Option ℚ, calculate evalFn "" = .error msg)
        ↔ ∃ c ∈ ("" : String).data, allowedChar c = false) := by
  intro h
  obtain ⟨c, hc, _⟩ := h.mp ⟨"Expression is required", fun _ => rfl⟩
  exact absurd hc (List.not_mem_nil c)

/-- C5 (amended): for every nonempty input, `calculate` rejects before
evaluation (with "Invalid characters in expression", for every evaluator,
so nothing is stripped or evaluated) iff the input contains a character
outside `[0-9+\-*/().\s]`; the empty string is rejected by the presence
check instead; `calculate("DROP TABLE")` is rejected, never evaluated. -/
theorem C5_theorem :
    (∀ s : String, s ≠ "" →
      ((∀ evalFn : String → Option ℚ,
          calculate evalFn s = .error "Invalid characters in expression")
        ↔ ∃ c ∈ s.data, allowedChar c = false)) ∧
    (∀ evalFn : String → Option ℚ,
      calculate evalFn "" = .error "Expression is required") ∧
    (∀ evalFn : String → Option ℚ,
      calculate evalFn "DROP TABLE" = .error "Invalid characters in expression") := by
  refine ⟨?_, fun _ => rfl, ?_⟩
  · intro s hne
    constructor
    · intro h
      by_contra hno
      push_neg at hno
      have hall : ∀ c ∈ s.data, allowedChar c = true := by
        intro c hc
        have := hno c hc
        simpa using this
      have h2 := h (fun _ => some 0)
      rw [calculate_clean (fun _ => some 0) s hne hall] at h2
      simp at h2
    · rintro ⟨c, hc, hbad⟩ evalFn
      exact calculate_invalid_chars evalFn s hne ⟨c, hc, hbad⟩
  · intro evalFn
    exact calculate_invalid_chars evalFn "DROP TABLE" (by decide)
      ⟨'D', by decide, by decide⟩

/-- C5 witness: a lowercase letter is rejected as a disallowed character. -/
theorem C5_witness :
    calculate calcEval "a" = .error "Invalid characters in expression" :=
  (C5_theorem.1 "a" (by decide)).mpr ⟨'a', by decide, by decide⟩ calcEval

theorem calcEval_two_plus_two : calcEval "2 + 2" = some 4 := by
  unfold calcEval
  rw [show tokenize "2 + 2" = some [Tok.num 2, Tok.plus, Tok.num 2] from by decide]
  show (match parseExpr [Tok.num 2, Tok.plus, Tok.num 2] with
    | some e => evalE e
    | none => none) = some 4
  rw [show parseExpr [Tok.num 2, Tok.plus, Tok.num 2]
      = some (Expr.add (Expr.num 2) (Expr.num 2)) from by decide]
  show evalE (Expr.add (Expr.num 2) (Expr.num 2)) = some 4
  norm_num [evalE]

theorem calcEval_ten_times_five : calcEval "10 * 5" = some 50 := by
  unfold calcEval
  rw [show tokenize "10 * 5" = some [Tok.num 10, Tok.star, Tok.num 5] from by decide]
  show (match parseExpr [Tok.num 10, Tok.star, Tok.num 5] with
    | some e => evalE e
    | none => none) = some 50
  rw [show parseExpr [Tok.num 10, Tok.star, Tok.num 5]
      = some (Expr.mul (Expr.num 10) (Expr.num 5)) from by decide]
  show evalE (Expr.mul (Expr.num 10) (Expr.num 5)) = some 50
  norm_num [evalE]

/-- C6: `calculate`, running the (spec-modelled) standard-precedence
evaluator, returns the mathematical value of every well-formed arithmetic
expression (every printed expression tree whose value is defined), and in
particular `calculate("2 + 2") = 4` and `calculate("10 * 5") = 50`. -/
theorem C6_theorem :
    (∀ (e : Expr) (q : ℚ), evalE e = some q →
      calculate calcEval (renderE e) = .ok q) ∧
    calculate calcEval "2 + 2" = .ok 4 ∧
    calculate calcEval "10 * 5" = .ok 50 := by
  refine ⟨calculate_renderE, ?_, ?_⟩
  · rw [calculate_clean calcEval "2 + 2" (by decide) (by decide),
      calcEval_two_plus_two]
  · rw [calculate_clean calcEval "10 * 5" (by decide) (by decide),
      calcEval_ten_times_five]

/-- C6 witness: `"1+2*3"` (the rendering of `1 + (2 * 3)`) evaluates to `7`
with standard precedence. -/
theorem C6_witness :
    calculate calcEval
      (renderE (Expr.add (Expr.num 1) (Expr.mul (Expr.num 2) (Expr.num 3))))
      = .ok 7 :=
  C6_theorem.1 (Expr.add (Expr.num 1) (Expr.mul (Expr.num 2) (Expr.num 3))) 7
    (by norm_num [evalE])

/-- C7: every failure inside a tool handler is caught by the surrounding
`try`/`catch` and converted into a structured tool error
(`isError: true`, message "Error: …"); successful handlers return
non-error results; an unknown tool name becomes such a structured error
too, so dispatch never propagates a failure. -/
theorem C7_theorem :
    ∀ (fmt : Option String → Except String String) (evalFn : String → Option ℚ)
      (showNum : ℚ → String) (name : String) (args : ToolArgs),
      (∀ msg, handleTool fmt evalFn showNum name args = .error msg →
        dispatch fmt evalFn showNum name args = ⟨"Error: " ++ msg, true⟩) ∧
      (∀ r, handleTool fmt evalFn showNum name args = .ok r →
        dispatch fmt evalFn showNum name args = r ∧ r.isError = false) ∧
      (name ≠ "get_current_time" → name ≠ "calculate" → name ≠ "echo" →
        dispatch fmt evalFn showNum name args
          = ⟨"Error: " ++ ("Unknown tool: " ++ name), true⟩) := by
  intro fmt evalFn showNum name args
  refine ⟨?_, ?_, ?_⟩
  · intro msg h
    exact dispatch_of_error fmt evalFn showNum name args msg h
  · intro r h
    exact ⟨dispatch_of_ok fmt evalFn showNum name args r h,
      handleTool_ok_isError_false fmt evalFn showNum name args r h⟩
  · intro h1 h2 h3
    exact dispatch_of_error fmt evalFn showNum name args _
      (handleTool_unknown fmt evalFn showNum name args h1 h2 h3)

/-- C7 witness: a call to an unknown tool yields a structured error result
rather than a propagated failure. -/
theorem C7_witness :
    dispatch (fun _ => Except.error "bad tz") (fun _ => none) (fun _ => "")
      "unknown_tool" ⟨none, none, none, none⟩
      = ⟨"Error: " ++ ("Unknown tool: " ++ "unknown_tool"), true⟩ :=
  (C7_theorem (fun _ => Except.error "bad tz") (fun _ => none) (fun _ => "")
    "unknown_tool" ⟨none, none, none, none⟩).2.2 (by decide) (by decide) (by decide)

/-- C8: the authentication middleware returns 401 for a missing header or
one not starting with `"Bearer "`, 403 for a well-formed header whose token
differs from the API key, passes a matching token through, and never
touches the session registry. -/
theorem C8_theorem :
    ∀ (hdr : Option String) (apiKey : String) (st : List (String × TransportId)),
      (hdr = none → authenticate hdr apiKey = AuthOutcome.unauthorized401) ∧
      (∀ h, hdr = some h → jsStartsWith h "Bearer " = false →
        authenticate hdr apiKey = AuthOutcome.unauthorized401) ∧
      (∀ h, hdr = some h → jsStartsWith h "Bearer " = true →
        jsSubstring h 7 ≠ apiKey →
        authenticate hdr apiKey = AuthOutcome.forbidden403) ∧
      (∀ h, hdr = some h → jsStartsWith h "Bearer " = true →
        jsSubstring h 7 = apiKey →
        authenticate hdr apiKey = AuthOutcome.pass) ∧
      (authMiddleware st hdr apiKey).2 = st := by
  intro hdr apiKey st
  refine ⟨?_, ?_, ?_, ?_, rfl⟩
  · intro h
    rw [h]
    exact authenticate_none apiKey
  · intro h hh hb
    rw [hh]
    exact authenticate_not_bearer h apiKey hb
  · intro h hh hb hk
    rw [hh]
    exact authenticate_forbidden h apiKey hb hk
  · intro h hh hb hk
    rw [hh]
    exact authenticate_pass h apiKey hb hk

/-- C8 witness: a wrong bearer token is answered 403 and the registry is
unchanged. -/
theorem C8_witness :
    authenticate (some "Bearer wrong") "secret" = AuthOutcome.forbidden403 ∧
    (authMiddleware ([("A", 1)] : List (String × TransportId))
      (some "Bearer wrong") "secret").2 = [("A", 1)] :=
  ⟨(C8_theorem (some "Bearer wrong") "secret" [("A", 1)]).2.2.1 "Bearer wrong"
      rfl (by decide) (by decide),
    (C8_theorem (some "Bearer wrong") "secret" [("A", 1)]).2.2.2.2⟩

/-- C9: in every reachable `part_000` state, the most-recent transport,
when set, is the transport of a registered (lookup-able) session; the
connection-close cleanup nulls it exactly when the transport of the
closing session is the current one; consequently, after the most-recent session
closes, messages are answered `202` even though an older session remains
registered. -/
theorem C9_theorem :
    (∀ s : P0State, P0Reachable s →
      ∀ t, s.currentTransport = some t → ∃ id, jsMapGet s.transports id = some t) ∧
    (∀ (s : P0State) (id : String) (t : TransportId), (id, t) ∈ s.opens →
      P0Step s ⟨jsMapDelete s.transports id,
        if s.currentTransport = some t then none else s.currentTransport,
        s.opens.filter (fun p => decide (p ≠ (id, t)))⟩ ∧
      ((if s.currentTransport = some t then none else s.currentTransport) = none
        ↔ (s.currentTransport = none ∨ s.currentTransport = some t))) ∧
    (P0Reachable ⟨[("A", 1)], none, [("A", 1)]⟩ ∧
      ([("A", 1)] : List (String × TransportId)) ≠ [] ∧
      routeMessage ⟨[("A", 1)], none, [("A", 1)]⟩ none = RouteResult.accepted202) := by
  refine ⟨?_, ?_, ?_, by decide, rfl⟩
  · intro s hreach t hcur
    have hinv := p0Reachable_inv s hreach
    obtain ⟨id, hmem⟩ := hinv.2.2 t hcur
    refine ⟨id, ?_⟩
    rw [hinv.1]
    exact jsMapGet_of_mem_nodup s.opens hinv.2.1 id t hmem
  · intro s id t hmem
    refine ⟨P0Step.close s id t hmem, ?_⟩
    by_cases hc : s.currentTransport = some t
    · rw [if_pos hc]
      simp [hc]
    · rw [if_neg hc]
      constructor
      · intro h
        exact Or.inl h
      · intro h
        rcases h with h | h
        · exact h
        · exact absurd h hc
  · have h1 : P0Step P0State.init ⟨[("A", 1)], some 1, [("A", 1)]⟩ :=
      P0Step.connect P0State.init "A" 1 (by simp [P0State.init])
    have h2 : P0Step ⟨[("A", 1)], some 1, [("A", 1)]⟩
        ⟨[("A", 1), ("B", 2)], some 2, [("A", 1), ("B", 2)]⟩ :=
      P0Step.connect ⟨[("A", 1)], some 1, [("A", 1)]⟩ "B" 2 (by decide)
    have h3 : P0Step ⟨[("A", 1), ("B", 2)], some 2, [("A", 1), ("B", 2)]⟩
        ⟨[("A", 1)], none, [("A", 1)]⟩ :=
      P0Step.close ⟨[("A", 1), ("B", 2)], some 2, [("A", 1), ("B", 2)]⟩ "B" 2
        (by decide)
    exact P0Reachable.step _ _
      (P0Reachable.step _ _ (P0Reachable.step _ _ P0Reachable.init h1) h2) h3

/-- C9 witness: in the reachable single-session state, the current
transport is lookup-able. -/
theorem C9_witness :
    ∃ id, jsMapGet ([("A", 1)] : List (String × TransportId)) id = some 1 :=
  C9_theorem.1 ⟨[("A", 1)], some 1, [("A", 1)]⟩
    (P0Reachable.step _ _ P0Reachable.init
      (P0Step.connect P0State.init "A" 1 (by simp [P0State.init]))) 1 rfl

/-- C10: at the tool interface the empty string is rejected by the
presence check, not processed: `calculate` with `expression = ""` returns
the tool error "Expression is required", and `echo` with `message = ""`
returns "Message is required" rather than echoing. -/
theorem C10_theorem :
    ∀ (fmt : Option String → Except String String) (evalFn : String → Option ℚ)
      (showNum : ℚ → String) (args : ToolArgs),
      (args.expression = some "" →
        dispatch fmt evalFn showNum "calculate" args
          = ⟨"Error: " ++ "Expression is required", true⟩) ∧
      (args.message = some "" →
        dispatch fmt evalFn showNum "echo" args
          = ⟨"Error: " ++ "Message is required", true⟩) := by
  intro fmt evalFn showNum args
  constructor
  · intro hexp
    apply dispatch_of_error
    rw [handleTool_calculate, hexp]
    rw [show ((some "").getD "" : String) = "" from rfl, calculate_empty evalFn]
  · intro hmsg
    apply dispatch_of_error
    rw [handleTool_echo, hmsg]
    rw [if_pos (show ((some "").getD "" : String) = "" from rfl)]

/-- C10 witness: both empty-string rejections at concrete arguments. -/
theorem C10_witness :
    dispatch (fun _ => Except.ok "t") calcEval (fun _ => "") "calculate"
      ⟨none, some "", none, none⟩
      = ⟨"Error: " ++ "Expression is required", true⟩ ∧
    dispatch (fun _ => Except.ok "t") calcEval (fun _ => "") "echo"
      ⟨none, none, some "", none⟩
      = ⟨"Error: " ++ "Message is required", true⟩ :=
  ⟨(C10_theorem (fun _ => Except.ok "t") calcEval (fun _ => "")
      ⟨none, some "", none, none⟩).1 rfl,
    (C10_theorem (fun _ => Except.ok "t") calcEval (fun _ => "")
      ⟨none, none, some "", none⟩).2 rfl⟩

end Crooft
